import Mathlib

/-!
Shallow embedding of the fsorg-mcp safety-validation and controlled-mutation
subsystem (src/utils/safety.ts, src/utils/config.ts, src/utils/files.ts,
src/tools/organize.ts, src/tools/search.ts), together with proofs about the
claims of the specification.

Modelling conventions:
- Paths are `String`s, as in the source.  Node's `path.resolve`, `path.dirname`,
  `path.join` and the JS string operations (`startsWith`, `split`, `slice`) are
  modelled character-exactly for POSIX-style paths (the spec states that this
  subsystem is handed already-resolved absolute paths).
- The host oracles that cannot be embedded (the JS `RegExp` engine applied to
  user-supplied pattern sources, the md5 digest, the mtime clock) are fields of
  the context/filesystem structures: the embedding is parametric in them and
  the theorems state which of their properties are used.
- Asynchronous filesystem calls become pure functions over an explicit
  filesystem value `FS`; a thrown JS exception becomes `Except.error` carrying
  the message; every attempted mutation additionally emits an `Event`, so that
  the temporal "validation precedes mutation" claims can be stated on traces.
-/

namespace Fsorg

/-- JS `String.prototype.startsWith`, on character lists. -/
def strStartsWith (s pre : String) : Bool := pre.data.isPrefixOf s.data

/-- JS `String.prototype.endsWith`, on character lists. -/
def strEndsWith (s suf : String) : Bool := suf.data.isSuffixOf s.data

/-- JS `s.slice(0, -1)`: drop the final character. -/
def strDropLast (s : String) : String := ⟨s.data.dropLast⟩

/-- JS `s.slice(1)`: drop the first character. -/
def strDrop1 (s : String) : String := ⟨s.data.drop 1⟩

/-- Split a character list at any of the given separator characters, keeping
empty pieces, like JS `String.prototype.split` with a character class. -/
def splitCharsAux (seps : List Char) : List Char → List (List Char)
  | [] => [[]]
  | c :: rest =>
    if c ∈ seps then [] :: splitCharsAux seps rest
    else
      match splitCharsAux seps rest with
      | [] => [[c]]
      | g :: gs => (c :: g) :: gs

/-- JS `p.split("/")`. -/
def splitSlash (p : String) : List String := (splitCharsAux ['/'] p.data).map String.mk

/-- JS `p.split(/[/\\]/)` (used for the basename in `validateDeletion`). -/
def splitSeps (p : String) : List String := (splitCharsAux ['/', '\\'] p.data).map String.mk

/-- The characters of an absolute path with the given components:
each component is preceded by one `/`. -/
def flatComps (cs : List String) : List Char := cs.flatMap (fun c => '/' :: c.data)

/-- The absolute normalized path with the given components (`[] ↦ "/"`). -/
def mkPath (cs : List String) : String := if cs = [] then "/" else ⟨flatComps cs⟩

/-- One step of POSIX path normalization over split components:
empty pieces and `.` are dropped, `..` pops. -/
def normStep (acc : List String) (c : String) : List String :=
  if c = "" ∨ c = "." then acc else if c = ".." then acc.dropLast else acc ++ [c]

/-- POSIX component normalization, as performed by Node `path.resolve`. -/
def normComps (cs : List String) : List String := cs.foldl normStep []

/-- Normalization of an absolute path string. -/
def resolveAbs (p : String) : String := mkPath (normComps (splitSlash p))

/-- The per-process context: host home directory, working directory, platform,
the (parsed or failed) content of the configuration file, and the host oracles
for user-supplied regular expressions and for md5. -/
structure Ctx where
  home : String
  cwd : String
  platformIsDarwin : Bool
  platformIsWin32 : Bool
  configFileRaw : Option (Option (List String × List String × List String))
  regexValid : String → Bool
  regexTest : String → String → Bool
  md5 : List Nat → String

/-- Node `path.resolve(p)`: absolute paths are normalized, relative paths are
resolved against the process working directory. -/
def resolve (ctx : Ctx) (p : String) : String :=
  if strStartsWith p "/" then resolveAbs p else resolveAbs (ctx.cwd ++ "/" ++ p)

/-- Node `path.dirname` for POSIX paths: the characters before the last `/`,
or `/` when there are none (modelled for the absolute paths this subsystem
passes; Node returns `.` only for relative inputs without a slash, which the
spec excludes). -/
def dirname (p : String) : String :=
  let pre := ((p.data.reverse.dropWhile (fun c => c ≠ '/')).drop 1).reverse
  if pre = [] then "/" else ⟨pre⟩

/-- Node `path.join(a, b)` for the shapes this code produces: a single `/`
between the two parts. -/
def pathJoin (a b : String) : String :=
  let a2 := if a.data.getLast? = some '/' then a.data.dropLast else a.data
  let b2 := if b.data.head? = some '/' then b.data.tail else b.data
  ⟨a2 ++ '/' :: b2⟩

/-- The final `/`-separated piece of a path (Node dirent name of a full key). -/
def lastComp (p : String) : String := ((splitSlash p).getLast?).getD ""

/-- `normalizedPath.split(/[/\\]/).pop() || ""` from `validateDeletion`. -/
def basenameOf (p : String) : String := ((splitSeps p).getLast?).getD ""

/-- A clean path component: nonempty, not a dot-component, and free of
separator characters. -/
def okComp (c : String) : Prop :=
  c ≠ "" ∧ c ≠ "." ∧ c ≠ ".." ∧ '/' ∉ c.data ∧ '\\' ∉ c.data

instance (c : String) : Decidable (okComp c) := by
  unfold okComp; infer_instance

/-! ## Configuration (src/utils/config.ts) -/

/-- The configuration record produced by the Zod schema: three string lists,
all defaulting to `[]`. -/
structure RawConfig where
  allowedPaths : List String
  additionalProtectedPaths : List String
  additionalProtectedPatterns : List String
deriving DecidableEq

/-- `ConfigSchema.parse({})`: every list defaults to empty. -/
def emptyRawConfig : RawConfig := ⟨[], [], []⟩

/-- `loadConfig`: a missing file or a file that fails `JSON.parse`/Zod
validation (modelled by `some none`) falls back to the Zod defaults; a file
that parses yields its three lists.  Note that the user pattern *sources* are
kept as strings: no regular expression is compiled here. -/
def loadConfig (ctx : Ctx) : RawConfig :=
  match ctx.configFileRaw with
  | none => emptyRawConfig
  | some none => emptyRawConfig
  | some (some (a, p, pat)) => ⟨a, p, pat⟩

def systemProtectedPathsUnix : List String :=
  ["/", "/bin", "/boot", "/dev", "/etc", "/lib", "/lib64", "/opt", "/proc",
   "/root", "/run", "/sbin", "/srv", "/sys", "/usr", "/var"]

def systemProtectedPathsMacos : List String :=
  systemProtectedPathsUnix ++ ["/System", "/Library", "/Applications", "/Volumes", "/private"]

def systemProtectedPathsWindows : List String :=
  ["C:\\Windows", "C:\\Program Files", "C:\\Program Files (x86)", "C:\\ProgramData"]

/-- The fixed always-protected basename patterns, plus user-supplied pattern
sources (the latter evaluated through the host `RegExp` oracle). -/
inductive NamePattern
  | reDotGit | reDotSsh | reDotGnupg | reDotAws | reDotEnv | reDotEnvAny
  | reIdRsa | reIdEd25519 | reDotPem | reCredentials | reSecrets
  | user (src : String)
deriving DecidableEq

def systemProtectedPatterns : List NamePattern :=
  [.reDotGit, .reDotSsh, .reDotGnupg, .reDotAws, .reDotEnv, .reDotEnvAny,
   .reIdRsa, .reIdEd25519, .reDotPem, .reCredentials, .reSecrets]

/-- `pattern.test(name)`.  The fixed patterns are anchored literal (or
near-literal) regexes and are translated directly; user patterns go through
the host oracle. -/
def patternTest (ctx : Ctx) : NamePattern → String → Bool
  | .reDotGit, n => n == ".git"
  | .reDotSsh, n => n == ".ssh"
  | .reDotGnupg, n => n == ".gnupg"
  | .reDotAws, n => n == ".aws"
  | .reDotEnv, n => n == ".env"
  | .reDotEnvAny, n => strStartsWith n ".env." && decide (5 < n.data.length)
  | .reIdRsa, n => n == "id_rsa"
  | .reIdEd25519, n => n == "id_ed25519"
  | .reDotPem, n => n == ".pem"
  | .reCredentials, n => n == "credentials"
  | .reSecrets, n => n == "secret" || n == "secrets"
  | .user src, n => ctx.regexTest src n

def getDefaultAllowedPaths (ctx : Ctx) : List String :=
  [pathJoin ctx.home "projects", pathJoin ctx.home "Projects",
   pathJoin ctx.home "dev", pathJoin ctx.home "Development",
   pathJoin ctx.home "workspace", pathJoin ctx.home "Workspace",
   pathJoin ctx.home "code", pathJoin ctx.home "Code",
   pathJoin ctx.home "tmp", pathJoin ctx.home "temp"]

def getUserProtectedPaths (ctx : Ctx) : List String :=
  [ctx.home, pathJoin ctx.home ".ssh", pathJoin ctx.home ".gnupg",
   pathJoin ctx.home ".aws", pathJoin ctx.home ".config"] ++
  (if ctx.platformIsDarwin then
    [pathJoin ctx.home "Library", pathJoin ctx.home "Desktop",
     pathJoin ctx.home "Documents", pathJoin ctx.home "Downloads",
     pathJoin ctx.home "Pictures", pathJoin ctx.home "Music",
     pathJoin ctx.home "Movies"]
   else if ctx.platformIsWin32 then
    [pathJoin ctx.home "Desktop", pathJoin ctx.home "Documents",
     pathJoin ctx.home "Downloads", pathJoin ctx.home "AppData"]
   else
    [pathJoin ctx.home "Desktop", pathJoin ctx.home "Documents",
     pathJoin ctx.home "Downloads"])

def getSystemProtectedPaths (ctx : Ctx) : List String :=
  if ctx.platformIsDarwin then systemProtectedPathsMacos
  else if ctx.platformIsWin32 then systemProtectedPathsWindows
  else systemProtectedPathsUnix

/-- `expandPath`: a leading `~` is replaced through the home directory,
otherwise the path is resolved. -/
def expandPath (ctx : Ctx) (p : String) : String :=
  if strStartsWith p "~" then pathJoin ctx.home (strDrop1 p) else resolve ctx p

/-- `getAllowedPaths`: user-configured roots (home-expanded) when present,
the built-in defaults otherwise. -/
def getAllowedPaths (ctx : Ctx) : List String :=
  let config := loadConfig ctx
  if config.allowedPaths.length > 0 then config.allowedPaths.map (expandPath ctx)
  else getDefaultAllowedPaths ctx

/-- `getProtectedPaths`: fixed system paths, fixed user-critical paths, and
user additions, unioned in that order. -/
def getProtectedPaths (ctx : Ctx) : List String :=
  getSystemProtectedPaths ctx ++ getUserProtectedPaths ctx ++
    (loadConfig ctx).additionalProtectedPaths.map (expandPath ctx)

/-- `getProtectedPatterns`: `new RegExp(p)` is applied to every user pattern
source on each call; the first syntactically invalid source throws a
`SyntaxError` (modelled through the `regexValid` oracle). -/
def getProtectedPatterns (ctx : Ctx) : Except String (List NamePattern) :=
  let user := (loadConfig ctx).additionalProtectedPatterns
  match user.find? (fun p => ! ctx.regexValid p) with
  | some bad => .error ("Invalid regular expression: " ++ bad)
  | none => .ok (systemProtectedPatterns ++ user.map NamePattern.user)

/-! ## Policy engine (src/utils/safety.ts) -/

structure SafetyCheckResult where
  safe : Bool
  reason : Option String
  details : Option String
deriving DecidableEq

/-- `isPathProtected`: first an exact-match pass over the protected paths,
then a parent-of-protected pass using string-prefix comparison with an
appended separator. -/
def isPathProtected (ctx : Ctx) (targetPath : String) : SafetyCheckResult :=
  let normalizedPath := resolve ctx targetPath
  let protectedPaths := getProtectedPaths ctx
  match protectedPaths.find? (fun pp => resolve ctx (expandPath ctx pp) == normalizedPath) with
  | some _ =>
    ⟨false, some "PROTECTED_PATH",
     some s!"\"{normalizedPath}\" is a protected path and cannot be deleted."⟩
  | none =>
    match protectedPaths.find? (fun pp =>
        let np := resolve ctx (expandPath ctx pp)
        strStartsWith np (normalizedPath ++ "/") || strStartsWith np (normalizedPath ++ "\\")) with
    | some _ =>
      ⟨false, some "PARENT_OF_PROTECTED",
       some s!"\"{normalizedPath}\" contains protected paths and cannot be deleted."⟩
    | none => ⟨true, none, none⟩

/-- The body of `isWithinAllowedScope` after reading the allow-list: an empty
allow-list rejects everything; otherwise the path must equal or extend (by
string prefix with separator) some allowed base. -/
def isWithinAllowedScopeCore (ctx : Ctx) (allowedPaths : List String) (targetPath : String) :
    SafetyCheckResult :=
  let normalizedPath := resolve ctx targetPath
  if allowedPaths.length = 0 then
    ⟨false, some "NO_ALLOWED_PATHS",
     some "No allowed paths configured. Please configure allowedPaths in your config file."⟩
  else if allowedPaths.any (fun allowedBase =>
      let normalizedAllowed := resolve ctx (expandPath ctx allowedBase)
      strStartsWith normalizedPath (normalizedAllowed ++ "/") ||
      strStartsWith normalizedPath (normalizedAllowed ++ "\\") ||
      normalizedPath == normalizedAllowed) then
    ⟨true, none, none⟩
  else
    let joined := String.intercalate ", " allowedPaths
    ⟨false, some "OUTSIDE_ALLOWED_SCOPE",
     some s!"\"{normalizedPath}\" is outside allowed paths. Allowed: {joined}"⟩

def isWithinAllowedScope (ctx : Ctx) (targetPath : String) : SafetyCheckResult :=
  isWithinAllowedScopeCore ctx (getAllowedPaths ctx) targetPath

/-- `isNameProtected`: tests the basename against the compiled pattern list;
compiling the patterns can throw for an invalid user pattern source. -/
def isNameProtected (ctx : Ctx) (name : String) : Except String SafetyCheckResult :=
  match getProtectedPatterns ctx with
  | .error e => .error e
  | .ok patterns =>
    match patterns.find? (fun pat => patternTest ctx pat name) with
    | some _ =>
      .ok ⟨false, some "PROTECTED_NAME",
           some s!"\"{name}\" matches a protected pattern and cannot be deleted."⟩
    | none => .ok ⟨true, none, none⟩

/-- `validateDeletion` with the allow-list made explicit (the source reads it
through `getAllowedPaths()` inside `isWithinAllowedScope`): scope check, then
path-protection check, then name-protection check, short-circuiting. -/
def validateDeletionWith (ctx : Ctx) (allowedPaths : List String) (targetPath : String) :
    Except String SafetyCheckResult :=
  let normalizedPath := resolve ctx targetPath
  let name := basenameOf normalizedPath
  let scopeCheck := isWithinAllowedScopeCore ctx allowedPaths normalizedPath
  if scopeCheck.safe then
    let protectedCheck := isPathProtected ctx normalizedPath
    if protectedCheck.safe then isNameProtected ctx name
    else .ok protectedCheck
  else .ok scopeCheck

def validateDeletion (ctx : Ctx) (targetPath : String) : Except String SafetyCheckResult :=
  validateDeletionWith ctx (getAllowedPaths ctx) targetPath

/-! ## Filesystem model and events -/

/-- A filesystem node: a regular file with its byte content, or a directory. -/
inductive FNode
  | file (content : List Nat)
  | dir
deriving DecidableEq

/-- A snapshot of the filesystem: nodes keyed by full path, paths whose
`readFile` fails (permissions, disappearance), paths whose `rmdir` fails even
when empty (permissions, in-use), and the host mtime-formatting oracle used by
the organize-by-date criterion. -/
structure FS where
  nodes : List (String × FNode)
  unreadable : List String
  rmdirBlocked : List String
  mtimeYM : String → String

/-- `fs.stat`: `none` models a thrown `ENOENT`. -/
def statFS (fs : FS) (p : String) : Option FNode :=
  (fs.nodes.find? (fun e => e.1 == p)).map (fun e => e.2)

/-- The directory entries directly inside `p`. -/
def childrenOf (fs : FS) (p : String) : List (String × FNode) :=
  fs.nodes.filter (fun e => dirname e.1 == p && e.1 != p)

/-- `fs.readdir`: throws unless `p` is an existing directory. -/
def readdirFS (fs : FS) (p : String) : Option (List (String × FNode)) :=
  match statFS fs p with
  | some .dir => some (childrenOf fs p)
  | _ => none

/-- `fs.readFile`: content of a readable regular file, `none` models a throw. -/
def readFileFS (fs : FS) (p : String) : Option (List Nat) :=
  if fs.unreadable.contains p then none
  else
    match statFS fs p with
    | some (.file c) => some c
    | _ => none

/-- Remove the node at exactly `p`. -/
def removeNodeFS (fs : FS) (p : String) : FS :=
  ⟨fs.nodes.filter (fun e => e.1 != p), fs.unreadable, fs.rmdirBlocked, fs.mtimeYM⟩

/-- Remove the node at `p` and its whole subtree. -/
def removeTreeFS (fs : FS) (p : String) : FS :=
  ⟨fs.nodes.filter (fun e => !(e.1 == p || strStartsWith e.1 (p ++ "/"))),
   fs.unreadable, fs.rmdirBlocked, fs.mtimeYM⟩

/-- Attempted filesystem mutations and policy validations, recorded in the
order the code performs them. -/
inductive Event
  | validated (path : String) (ok : Bool)
  | mkdirEv (path : String)
  | renameEv (src dst : String)
  | unlinkEv (path : String)
  | rmEv (path : String) (recursive : Bool)
  | rmdirEv (path : String)
deriving DecidableEq

/-- Every event other than a policy validation is an attempted mutation. -/
def isMutation : Event → Bool
  | .validated _ _ => false
  | _ => true

/-- `true` iff every attempted mutation in the trace is preceded by a policy
validation that approved. -/
def policedAux : Bool → List Event → Bool
  | _, [] => true
  | seen, (.validated _ ok) :: rest => policedAux (seen || ok) rest
  | seen, _ :: rest => seen && policedAux seen rest

def policedEvents (l : List Event) : Bool := policedAux false l

/-- `true` iff the trace attempts no mutation at all. -/
def mutationFree (l : List Event) : Bool := l.all (fun e => ! isMutation e)

/-- `fs.mkdir(p, { recursive: true })`: creates the missing directories along
`p`; a regular file occupying `p` or an ancestor throws `ENOTDIR`. -/
def mkdirRecFS (fs : FS) (p : String) : Except String FS × List Event :=
  let comps := normComps (splitSlash p)
  let dirsToMake := (comps.inits.filter (fun l => l ≠ [])).map mkPath
  if dirsToMake.any (fun d => match statFS fs d with | some (.file _) => true | _ => false) then
    (.error "ENOTDIR: not a directory, mkdir", [.mkdirEv p])
  else
    (.ok (dirsToMake.foldl (fun f d =>
        if (statFS f d).isSome then f
        else ⟨f.nodes ++ [(d, .dir)], f.unreadable, f.rmdirBlocked, f.mtimeYM⟩) fs),
     [.mkdirEv p])

/-- `fs.rename(src, dst)`: throws when `src` is missing; otherwise moves the
node and (for directories) its subtree, replacing anything at `dst`. -/
def renameFS (fs : FS) (src dst : String) : Except String FS × List Event :=
  match statFS fs src with
  | none => (.error "ENOENT: no such file or directory, rename", [.renameEv src dst])
  | some _ =>
    let kept := fs.nodes.filter (fun e => e.1 != dst)
    let moved := kept.map (fun e =>
      if e.1 == src then (dst, e.2)
      else if strStartsWith e.1 (src ++ "/") then
        (⟨dst.data ++ e.1.data.drop src.data.length⟩, e.2)
      else e)
    (.ok ⟨moved, fs.unreadable, fs.rmdirBlocked, fs.mtimeYM⟩, [.renameEv src dst])

/-- `fs.unlink(p)`: removes a regular file; throws on directories and on
missing paths. -/
def unlinkFS (fs : FS) (p : String) : Except String FS × List Event :=
  match statFS fs p with
  | some (.file _) => (.ok (removeNodeFS fs p), [.unlinkEv p])
  | some .dir => (.error "EPERM: operation not permitted, unlink", [.unlinkEv p])
  | none => (.error "ENOENT: no such file or directory, unlink", [.unlinkEv p])

/-- `fs.rm(p, { recursive, force: false })`: missing paths throw; directories
throw `EISDIR` unless `recursive` is set, in which case the subtree goes. -/
def rmFS (fs : FS) (p : String) (recursive : Bool) : Except String FS × List Event :=
  match statFS fs p with
  | none => (.error "ENOENT: no such file or directory, lstat", [.rmEv p recursive])
  | some (.file _) => (.ok (removeNodeFS fs p), [.rmEv p recursive])
  | some .dir =>
    if recursive then (.ok (removeTreeFS fs p), [.rmEv p recursive])
    else (.error "Path is a directory: rm returned EISDIR (is a directory)", [.rmEv p recursive])

/-! ## files.ts helpers -/

structure RemovedResult where
  removed : Bool
  reason : String
deriving DecidableEq

/-- `removeEmptyDirectory`: stat, emptiness check, recheck, then `rmdir`; all
throws are caught and reported in `reason`. -/
def removeEmptyDirectory (fs : FS) (dirPath : String) : FS × RemovedResult × List Event :=
  match statFS fs dirPath with
  | none => (fs, ⟨false, "ENOENT: no such file or directory, stat"⟩, [])
  | some (.file _) => (fs, ⟨false, "not_a_directory"⟩, [])
  | some .dir =>
    let entries := childrenOf fs dirPath
    if entries.length > 0 then
      let n := entries.length
      (fs, ⟨false, s!"not_empty ({n} items)"⟩, [])
    else
      let entriesRecheck := childrenOf fs dirPath
      if entriesRecheck.length > 0 then
        (fs, ⟨false, "not_empty_on_recheck"⟩, [])
      else if fs.rmdirBlocked.contains dirPath then
        (fs, ⟨false, "EPERM: operation not permitted, rmdir"⟩, [.rmdirEv dirPath])
      else
        (removeNodeFS fs dirPath, ⟨true, "empty_directory_removed"⟩, [.rmdirEv dirPath])

structure CleanupOut where
  fs : FS
  removed : List String
  skipped : List (String × String)
  events : List Event

/-- The upward while-loop of `cleanupEmptyDirectories`.  Each iteration that
continues removes a node, so `fs.nodes.length + 1` units of fuel make the fuel
parameter irrelevant: the function is the source loop. -/
def cleanupWalk : Nat → FS → String → String → CleanupOut
  | 0, fs, _, _ => ⟨fs, [], [], []⟩
  | fuel + 1, fs, currentDir, normalizedRoot =>
    if currentDir = "" ∨ currentDir = "/" ∨ currentDir = normalizedRoot then
      ⟨fs, [], [], []⟩
    else if ! strStartsWith currentDir normalizedRoot then
      ⟨fs, [], [(currentDir, "outside_root_boundary")], []⟩
    else
      match removeEmptyDirectory fs currentDir with
      | (fs2, result, evs) =>
        if result.removed then
          let rest := cleanupWalk fuel fs2 (dirname currentDir) normalizedRoot
          ⟨rest.fs, currentDir :: rest.removed, rest.skipped, evs ++ rest.events⟩
        else
          ⟨fs2, [], [(currentDir, result.reason)], evs⟩

/-- `cleanupEmptyDirectories(sourcePath, rootBoundary)`. -/
def cleanupEmptyDirectories (fs : FS) (sourcePath rootBoundary : String) : CleanupOut :=
  let normalizedRoot := if strEndsWith rootBoundary "/" then strDropLast rootBoundary else rootBoundary
  cleanupWalk (fs.nodes.length + 1) fs sourcePath normalizedRoot

/-- Node `path.extname`, lowercased by `getExtension`. -/
def extnameStr (p : String) : String :=
  let b := lastComp p
  match b.data.reverse.findIdx? (fun c => c = '.') with
  | none => ""
  | some i =>
    let pos := b.data.length - 1 - i
    if pos = 0 then "" else ⟨b.data.drop pos⟩

def getExtension (p : String) : String := ⟨(extnameStr p).data.map Char.toLower⟩

/-! ## Preview (previewDeletion / collectItems) -/

inductive EntryKind
  | file
  | dir
deriving DecidableEq

structure PreviewItem where
  path : String
  kind : EntryKind
  size : Option Nat
deriving DecidableEq

/-- One entry of the `collectItems` loop: a subdirectory contributes its own
recursive enumeration followed by itself; a file is stat'ed for its size; a
failing `stat` aborts the rest of this directory's loop (the enclosing
try/catch keeps what was already collected). -/
def collectEntry (fs : FS) (rec : String → List PreviewItem) (dirPath : String)
    (e : String × FNode) (acc : List PreviewItem) : List PreviewItem :=
  let fullPath := pathJoin dirPath (lastComp e.1)
  match e.2 with
  | .dir => rec fullPath ++ [⟨fullPath, .dir, none⟩] ++ acc
  | .file _ =>
    match statFS fs fullPath with
    | some (.file c) => ⟨fullPath, .file, some c.length⟩ :: acc
    | some .dir => ⟨fullPath, .file, some 0⟩ :: acc
    | none => []

/-- `collectItems(dirPath, items)`: depth-first enumeration of a directory.
The whole body is wrapped in try/catch, so a failing `readdir` yields nothing.
Nested directory chains are bounded by the node count, so
`fs.nodes.length + 1` fuel is always sufficient. -/
def collectAux (fs : FS) : Nat → String → List PreviewItem
  | 0, _ => []
  | fuel + 1, dirPath =>
    match readdirFS fs dirPath with
    | none => []
    | some entries => entries.foldr (collectEntry fs (collectAux fs fuel) dirPath) []

/-- `previewDeletion(targetPath, recursive)`: a one-item preview for files, the
directory itself for non-recursive directory previews, and the full depth-first
descendant enumeration followed by the directory for recursive ones.  A failed
`stat` yields the empty preview. -/
def previewDeletion (ctx : Ctx) (fs : FS) (targetPath : String) (recursive : Bool) :
    List PreviewItem :=
  let normalizedPath := resolve ctx targetPath
  match statFS fs normalizedPath with
  | none => []
  | some (.file c) => [⟨normalizedPath, .file, some c.length⟩]
  | some .dir =>
    (if recursive then collectAux fs (fs.nodes.length + 1) normalizedPath else []) ++
      [⟨normalizedPath, .dir, none⟩]

/-! ## listDirectoryTool and findDuplicatesTool (src/tools/search.ts) -/

structure DirEntry where
  name : String
  path : String
  kind : EntryKind
  size : Option Nat
deriving DecidableEq

/-- One entry of the `listDirectoryTool` loop: stat the entry (a throw aborts
the whole listing), build its record, and when `recursive` splice in the
sub-listing of a subdirectory (itself a full tool call, whose catch prefixes
the message) before the remaining entries. -/
def listEntry (fs : FS) (rec : String → Except String (List DirEntry))
    (path : String) (recursive : Bool) (e : String × FNode)
    (acc : Except String (List DirEntry)) : Except String (List DirEntry) :=
  let name := lastComp e.1
  let fullPath := pathJoin path name
  match statFS fs fullPath with
  | none => .error "ENOENT: no such file or directory, stat"
  | some stats =>
    let entry : DirEntry :=
      ⟨name, fullPath,
       (match e.2 with | .dir => .dir | .file _ => .file),
       (match e.2 with
        | .file _ => some (match stats with | .file c => c.length | .dir => 0)
        | .dir => none)⟩
    let subs : Except String (List DirEntry) :=
      match e.2 with
      | .dir =>
        if recursive then
          match rec fullPath with
          | .error err => .error ("Failed to list directory: " ++ err)
          | .ok l => .ok l
        else .ok []
      | .file _ => .ok []
    match subs with
    | .error err => .error err
    | .ok subEntries =>
      match acc with
      | .error err => .error err
      | .ok restEntries => .ok (entry :: subEntries ++ restEntries)

/-- The body of `listDirectoryTool` (no glob pattern): readdir with file
types, stat every entry, recurse into subdirectories when `recursive`.  Any
throw aborts the whole listing; the first (leftmost) failure wins, as in the
sequential source loop. -/
def listAux (fs : FS) : Nat → String → Bool → Except String (List DirEntry)
  | 0, _, _ => .ok []
  | fuel + 1, path, recursive =>
    match readdirFS fs path with
    | none => .error "ENOENT: no such file or directory, scandir"
    | some entries =>
      entries.foldr (listEntry fs (fun p => listAux fs fuel p true) path recursive) (.ok [])

/-- `listDirectoryTool` without a glob pattern; the catch block prefixes any
thrown message. -/
def listDirectoryTool (fs : FS) (path : String) (recursive : Bool) :
    Except String (List DirEntry) :=
  match listAux fs (fs.nodes.length + 1) path recursive with
  | .error e => .error ("Failed to list directory: " ++ e)
  | .ok l => .ok l

structure DupGroup where
  hash : String
  files : List String
  size : Nat
deriving DecidableEq

/-- Insertion into the hash map: an existing digest gains a path, a new digest
is appended with the first file's size (JS `Map` preserves insertion order). -/
def insertHash : List DupGroup → String → String → Nat → List DupGroup
  | [], h, p, sz => [⟨h, [p], sz⟩]
  | g :: rest, h, p, sz =>
    if g.hash = h then ⟨h, g.files ++ [p], g.size⟩ :: rest
    else g :: insertHash rest h p sz

/-- One step of the hash-map fold of `findDuplicatesTool`: a file entry is
hashed (`getFileHash` = md5 of the full content) and inserted; an entry whose
read fails is silently skipped. -/
def dupStep (ctx : Ctx) (fs : FS) (m : List DupGroup) (e : DirEntry) : List DupGroup :=
  if e.kind = .file then
    match readFileFS fs e.path with
    | none => m
    | some content => insertHash m (ctx.md5 content) e.path (e.size.getD 0)
  else m

/-- The hash-map fold of `findDuplicatesTool`. -/
def dupFold (ctx : Ctx) (fs : FS) (entries : List DirEntry) : List DupGroup :=
  entries.foldl (dupStep ctx fs) []

/-- `findDuplicatesTool`: list the tree, hash the files, keep the digest
groups with more than one member. -/
def findDuplicatesTool (ctx : Ctx) (fs : FS) (path : String) (recursive : Bool) :
    Except String (List DupGroup) :=
  match listDirectoryTool fs path recursive with
  | .error e => .error ("Failed to find duplicates: " ++ e)
  | .ok entries => .ok ((dupFold ctx fs entries).filter (fun g => g.files.length > 1))

/-! ## Tools (src/tools/organize.ts) -/

/-- Result of a tool call: the returned value or thrown message, the
filesystem afterwards, and the trace of validations and attempted mutations. -/
structure ToolOut (α : Type) where
  res : Except String α
  fs : FS
  events : List Event

structure MoveFileInput where
  source : String
  destination : String
  cleanupEmpty : Bool
deriving DecidableEq

structure MoveFileResult where
  message : String
  cleanedDirectories : List String
  skippedDirectories : List (String × String)
deriving DecidableEq

/-- `moveFileTool`: create the destination's parent, rename, optionally clean
up the vacated chain up to the parent of the source's directory. -/
def moveFileTool (fs : FS) (input : MoveFileInput) : ToolOut MoveFileResult :=
  let source := input.source
  let destination := input.destination
  let sourceDir := dirname source
  let rootBoundary := dirname sourceDir
  match mkdirRecFS fs (dirname destination) with
  | (.error e, evs) => ⟨.error ("Failed to move file: " ++ e), fs, evs⟩
  | (.ok fs1, evs1) =>
    match renameFS fs1 source destination with
    | (.error e, evs2) => ⟨.error ("Failed to move file: " ++ e), fs1, evs1 ++ evs2⟩
    | (.ok fs2, evs2) =>
      if input.cleanupEmpty then
        let cleanup := cleanupEmptyDirectories fs2 sourceDir rootBoundary
        ⟨.ok ⟨s!"Successfully moved {source} to {destination}", cleanup.removed, cleanup.skipped⟩,
         cleanup.fs, evs1 ++ evs2 ++ cleanup.events⟩
      else
        ⟨.ok ⟨s!"Successfully moved {source} to {destination}", [], []⟩, fs2, evs1 ++ evs2⟩

inductive Criteria
  | extension
  | date
  | size
deriving DecidableEq

structure OrganizeByTypeInput where
  source : String
  destination : String
  criteria : Criteria
  cleanupEmpty : Bool
deriving DecidableEq

structure OrganizeResult where
  file : String
  movedTo : String
deriving DecidableEq

structure OrganizeByTypeResult where
  files : List OrganizeResult
  cleanedDirectories : List String
  skippedDirectories : List (String × String)
deriving DecidableEq

/-- The subfolder name chosen for one file by `organizeByTypeTool`. -/
def organizeSubFolder (fs : FS) (criteria : Criteria) (fullPath : String) (content : List Nat) :
    String :=
  match criteria with
  | .extension =>
    let ext := getExtension fullPath
    if ext ≠ "" then ⟨(strDrop1 ext).data.map Char.toUpper⟩ else "NO_EXTENSION"
  | .date => fs.mtimeYM fullPath
  | .size =>
    if content.length < 1024 then "tiny"
    else if content.length < 1048576 then "small"
    else if content.length < 104857600 then "medium"
    else "large"

/-- The entry loop of `organizeByTypeTool`: stat each name, skip non-files,
make the destination subfolder and rename into it.  Any throw aborts. -/
def organizeLoop (fs : FS) (source destination : String) (criteria : Criteria) :
    List String → Except String (FS × List OrganizeResult × List Event)
  | [] => .ok (fs, [], [])
  | entry :: rest =>
    let fullPath := pathJoin source entry
    match statFS fs fullPath with
    | none => .error "ENOENT: no such file or directory, stat"
    | some .dir => organizeLoop fs source destination criteria rest
    | some (.file content) =>
      let subFolder := organizeSubFolder fs criteria fullPath content
      let destFolder := pathJoin destination subFolder
      match mkdirRecFS fs destFolder with
      | (.error e, _) => .error e
      | (.ok fs1, evs1) =>
        let destPath := pathJoin destFolder entry
        match renameFS fs1 fullPath destPath with
        | (.error e, _) => .error e
        | (.ok fs2, evs2) =>
          match organizeLoop fs2 source destination criteria rest with
          | .error e => .error e
          | .ok (fs3, results, evs3) =>
            .ok (fs3, ⟨entry, destPath⟩ :: results, evs1 ++ evs2 ++ evs3)

/-- `organizeByTypeTool`: reads the source names, moves each regular file into
a criteria subfolder of the destination, then optionally cleans up the source
chain bounded by the source's parent.  No policy validation occurs anywhere. -/
def organizeByTypeTool (fs : FS) (input : OrganizeByTypeInput) : ToolOut OrganizeByTypeResult :=
  let source := input.source
  let rootBoundary := dirname source
  match readdirFS fs source with
  | none => ⟨.error "Failed to organize files: ENOENT: no such file or directory, scandir", fs, []⟩
  | some entries =>
    let names := entries.map (fun e => lastComp e.1)
    match organizeLoop fs source input.destination input.criteria names with
    | .error e => ⟨.error ("Failed to organize files: " ++ e), fs, []⟩
    | .ok (fs1, results, evs) =>
      if input.cleanupEmpty then
        let cleanup := cleanupEmptyDirectories fs1 source rootBoundary
        ⟨.ok ⟨results, cleanup.removed, cleanup.skipped⟩, cleanup.fs, evs ++ cleanup.events⟩
      else
        ⟨.ok ⟨results, [], []⟩, fs1, evs⟩

structure SafetyChecks where
  withinScope : Bool
  notProtected : Bool
  allowedPaths : List String
deriving DecidableEq

structure DeleteFileInput where
  path : String
  preview : Bool
  cleanupEmpty : Bool
deriving DecidableEq

structure DeleteFileResult where
  executed : Bool
  message : String
  deletedFile : Option String
  cleanedDirectories : List String
  safetyChecks : SafetyChecks
  preview : Option (List PreviewItem)
deriving DecidableEq

/-- `deleteFileTool`: policy validation first (outside the try block), then
stat, preview short-circuit, unlink, optional cleanup. -/
def deleteFileTool (ctx : Ctx) (fs : FS) (input : DeleteFileInput) : ToolOut DeleteFileResult :=
  let normalizedPath := resolve ctx input.path
  match validateDeletion ctx normalizedPath with
  | .error e => ⟨.error e, fs, []⟩
  | .ok safetyCheck =>
    let allowedPaths := getAllowedPaths ctx
    let ev0 := [Event.validated normalizedPath safetyCheck.safe]
    if safetyCheck.safe then
      match statFS fs normalizedPath with
      | none => ⟨.error "Failed to delete file: ENOENT: no such file or directory, stat", fs, ev0⟩
      | some .dir => ⟨.error "Failed to delete file: Path is not a file", fs, ev0⟩
      | some (.file content) =>
        if input.preview then
          let previewItems := previewDeletion ctx fs normalizedPath false
          let sz := content.length
          ⟨.ok ⟨false, s!"PREVIEW: Would delete file \"{normalizedPath}\" ({sz} bytes)",
                none, [], ⟨true, true, allowedPaths⟩, some previewItems⟩, fs, ev0⟩
        else
          let sourceDir := dirname normalizedPath
          let rootBoundary := dirname sourceDir
          match unlinkFS fs normalizedPath with
          | (.error e, evs) => ⟨.error ("Failed to delete file: " ++ e), fs, ev0 ++ evs⟩
          | (.ok fs1, evs1) =>
            if input.cleanupEmpty then
              let cleanup := cleanupEmptyDirectories fs1 sourceDir rootBoundary
              ⟨.ok ⟨true, s!"Successfully deleted {normalizedPath}", some normalizedPath,
                    cleanup.removed, ⟨true, true, allowedPaths⟩, none⟩,
               cleanup.fs, ev0 ++ evs1 ++ cleanup.events⟩
            else
              ⟨.ok ⟨true, s!"Successfully deleted {normalizedPath}", some normalizedPath,
                    [], ⟨true, true, allowedPaths⟩, none⟩, fs1, ev0 ++ evs1⟩
    else
      let r := safetyCheck.reason.getD "undefined"
      let d := safetyCheck.details.getD "undefined"
      ⟨.ok ⟨false, s!"BLOCKED: {r} - {d}", none, [],
            ⟨safetyCheck.reason != some "OUTSIDE_ALLOWED_SCOPE",
             safetyCheck.reason != some "PROTECTED_PATH" &&
               safetyCheck.reason != some "PROTECTED_NAME",
             allowedPaths⟩, none⟩, fs, ev0⟩

structure DeleteDirectoryInput where
  path : String
  preview : Bool
  recursive : Bool
  confirmRecursive : Bool
deriving DecidableEq

structure DeleteDirectoryResult where
  executed : Bool
  message : String
  deletedPath : Option String
  wasRecursive : Bool
  itemsDeleted : Option Nat
  safetyChecks : SafetyChecks
  preview : Option (List PreviewItem)
deriving DecidableEq

/-- `deleteDirectoryTool`: policy validation, then the independent
recursive-confirmation gate, then stat, preview, emptiness check for the
non-recursive case (thrown, not returned), and `rm`. -/
def deleteDirectoryTool (ctx : Ctx) (fs : FS) (input : DeleteDirectoryInput) :
    ToolOut DeleteDirectoryResult :=
  let normalizedPath := resolve ctx input.path
  match validateDeletion ctx normalizedPath with
  | .error e => ⟨.error e, fs, []⟩
  | .ok safetyCheck =>
    let allowedPaths := getAllowedPaths ctx
    let ev0 := [Event.validated normalizedPath safetyCheck.safe]
    if safetyCheck.safe then
      if input.recursive && ! input.confirmRecursive then
        ⟨.ok ⟨false,
              "BLOCKED: Recursive deletion requires confirmRecursive=true as explicit confirmation",
              none, input.recursive, none, ⟨true, true, allowedPaths⟩, none⟩, fs, ev0⟩
      else
        match statFS fs normalizedPath with
        | none =>
          ⟨.error "Failed to delete directory: ENOENT: no such file or directory, stat", fs, ev0⟩
        | some (.file _) =>
          ⟨.error "Failed to delete directory: Path is not a directory", fs, ev0⟩
        | some .dir =>
          let previewItems := previewDeletion ctx fs normalizedPath input.recursive
          if input.preview then
            let fileCount := (previewItems.filter (fun i => i.kind = .file)).length
            let dirCount := (previewItems.filter (fun i => i.kind = .dir)).length
            let totalSize := previewItems.foldl (fun sum i => sum + i.size.getD 0) 0
            ⟨.ok ⟨false,
                  s!"PREVIEW: Would delete {fileCount} files and {dirCount} directories ({totalSize} bytes total)",
                  none, input.recursive, none, ⟨true, true, allowedPaths⟩, some previewItems⟩,
             fs, ev0⟩
          else
            let emptinessBlock : Except String Unit :=
              if ! input.recursive then
                let entries := childrenOf fs normalizedPath
                if entries.length > 0 then
                  let n := entries.length
                  .error s!"Directory is not empty ({n} items). Use recursive=true and confirmRecursive=true to delete anyway."
                else .ok ()
              else .ok ()
            match emptinessBlock with
            | .error e => ⟨.error ("Failed to delete directory: " ++ e), fs, ev0⟩
            | .ok () =>
              match rmFS fs normalizedPath input.recursive with
              | (.error e, evs) =>
                ⟨.error ("Failed to delete directory: " ++ e), fs, ev0 ++ evs⟩
              | (.ok fs1, evs1) =>
                ⟨.ok ⟨true, s!"Successfully deleted directory {normalizedPath}",
                      some normalizedPath, input.recursive, some previewItems.length,
                      ⟨true, true, allowedPaths⟩, none⟩, fs1, ev0 ++ evs1⟩
    else
      let r := safetyCheck.reason.getD "undefined"
      let d := safetyCheck.details.getD "undefined"
      ⟨.ok ⟨false, s!"BLOCKED: {r} - {d}", none, input.recursive, none,
            ⟨safetyCheck.reason != some "OUTSIDE_ALLOWED_SCOPE",
             safetyCheck.reason != some "PROTECTED_PATH" &&
               safetyCheck.reason != some "PROTECTED_NAME",
             allowedPaths⟩, none⟩, fs, ev0⟩

/-- Decidable equality for thrown-or-returned results. -/
instance exceptDecEq {ε α : Type _} [DecidableEq ε] [DecidableEq α] : DecidableEq (Except ε α)
  | .error a, .error b =>
    if h : a = b then .isTrue (by rw [h]) else .isFalse (by intro hc; cases hc; exact h rfl)
  | .error _, .ok _ => .isFalse (by intro hc; cases hc)
  | .ok _, .error _ => .isFalse (by intro hc; cases hc)
  | .ok a, .ok b =>
    if h : a = b then .isTrue (by rw [h]) else .isFalse (by intro hc; cases hc; exact h rfl)

/-! ## Concrete contexts and filesystems used by the claim theorems -/

/-- A linux context with one configured allow-list root `/h/p`. -/
def ctxA : Ctx :=
  ⟨"/h", "/", false, false, some (some (["/h/p"], [], [])),
   fun _ => true, fun _ _ => false, fun c => toString c⟩

/-- A small filesystem inside the allowed root. -/
def fsA : FS :=
  ⟨[("/h", .dir), ("/h/p", .dir), ("/h/p/a", .dir), ("/h/p/a/f.txt", .file [1, 2])],
   [], [], fun _ => "2024-01"⟩

/-! ## Trace helper lemmas -/

theorem policedAux_of_seen (l : List Event) : policedAux true l = true := by
  induction l with
  | nil => rfl
  | cons e rest ih => cases e <;> simp [policedAux, ih]

theorem policedEvents_validated_one (p : String) (b : Bool) :
    policedEvents [Event.validated p b] = true := by
  cases b <;> rfl

theorem policedEvents_validated_true (p : String) (l : List Event) :
    policedEvents (Event.validated p true :: l) = true := by
  show policedAux (false || true) l = true
  simpa using policedAux_of_seen l

theorem deleteFileTool_policed (ctx : Ctx) (fs : FS) (input : DeleteFileInput) :
    policedEvents (deleteFileTool ctx fs input).events = true := by
  unfold deleteFileTool
  dsimp only
  split
  · rfl
  · next sc hv =>
    split
    · next hsafe =>
      simp only [hsafe]
      split
      · exact policedEvents_validated_one _ _
      · exact policedEvents_validated_one _ _
      · next content h1 =>
        split
        · exact policedEvents_validated_one _ _
        · split
          · exact policedEvents_validated_true _ _
          · next fs1 evs1 h2 =>
            split
            · exact policedEvents_validated_true _ _
            · exact policedEvents_validated_true _ _
    · exact policedEvents_validated_one _ _

theorem deleteDirectoryTool_policed (ctx : Ctx) (fs : FS) (input : DeleteDirectoryInput) :
    policedEvents (deleteDirectoryTool ctx fs input).events = true := by
  unfold deleteDirectoryTool
  dsimp only
  split
  · rfl
  · next sc hv =>
    split
    · next hsafe =>
      simp only [hsafe]
      split
      · exact policedEvents_validated_one _ _
      · split
        · exact policedEvents_validated_one _ _
        · exact policedEvents_validated_one _ _
        · split
          · exact policedEvents_validated_one _ _
          · split
            · exact policedEvents_validated_true _ _
            · split
              · exact policedEvents_validated_true _ _
              · exact policedEvents_validated_true _ _
    · exact policedEvents_validated_one _ _

/-! ## Path-component bridge lemmas -/


def okComps (cs : List String) : Prop := ∀ c ∈ cs, okComp c

theorem flatComps_append (a b : List String) :
    flatComps (a ++ b) = flatComps a ++ flatComps b := by
  simp [flatComps]

theorem flatComps_cons (c : String) (cs : List String) :
    flatComps (c :: cs) = '/' :: c.data ++ flatComps cs := by
  simp [flatComps]

theorem flatComps_single (c : String) : flatComps [c] = '/' :: c.data := by
  simp [flatComps]

theorem flatComps_length_pos (cs : List String) (h : cs ≠ []) :
    0 < (flatComps cs).length := by
  cases cs with
  | nil => exact absurd rfl h
  | cons c t => simp [flatComps_cons]

theorem mkPath_data_of_ne_nil (cs : List String) (h : cs ≠ []) :
    (mkPath cs).data = flatComps cs := by
  simp [mkPath, h]

theorem two_le_flatComps_length (cs : List String) (hok : okComps cs) (h : cs ≠ []) :
    2 ≤ (flatComps cs).length := by
  cases cs with
  | nil => exact absurd rfl h
  | cons c t =>
    have hc : okComp c := hok c (by simp)
    have : c.data ≠ [] := by
      intro hd
      exact hc.1 (by cases c; simp at hd; rw [hd])
    have hlen : 0 < c.data.length := List.length_pos.mpr this
    have hstr : c.length = c.data.length := rfl
    simp [flatComps_cons]
    omega

theorem mkPath_length_lt (bs er : List String) (hok : okComps (bs ++ er)) (h : er ≠ []) :
    (mkPath bs).data.length < (mkPath (bs ++ er)).data.length := by
  have hner : bs ++ er ≠ [] := by simp [h]
  rw [mkPath_data_of_ne_nil _ hner, flatComps_append]
  have h2 : 2 ≤ (flatComps er).length :=
    two_le_flatComps_length er (fun c hc => hok c (by simp [hc])) h
  cases hbs : bs with
  | nil => simp [mkPath]; omega
  | cons b t =>
    rw [← hbs, mkPath_data_of_ne_nil _ (by simp [hbs])]
    simp
    omega

theorem mkPath_append_ne (bs er : List String) (hok : okComps (bs ++ er)) (h : er ≠ []) :
    mkPath (bs ++ er) ≠ mkPath bs := by
  intro hc
  have := mkPath_length_lt bs er hok h
  rw [hc] at this
  omega

theorem mkPath_ne_root (cs : List String) (hok : okComps cs) (h : cs ≠ []) :
    mkPath cs ≠ "/" := by
  intro hc
  have h1 := two_le_flatComps_length cs hok h
  have h2 : (mkPath cs).data = flatComps cs := mkPath_data_of_ne_nil cs h
  rw [hc] at h2
  have h3 : (flatComps cs).length = ("/" : String).data.length := by rw [h2]
  have h4 : ("/" : String).data.length = 1 := rfl
  omega

theorem mkPath_ne_empty (cs : List String) : mkPath cs ≠ "" := by
  cases hcs : cs with
  | nil => decide
  | cons c t =>
    rw [← hcs]
    intro hc
    have h2 : (mkPath cs).data = flatComps cs := mkPath_data_of_ne_nil cs (by simp [hcs])
    rw [hc] at h2
    have := flatComps_length_pos cs (by simp [hcs])
    rw [← h2] at this
    simp at this

theorem isPrefixOfAppendSelf (l t : List Char) : l.isPrefixOf (l ++ t) = true := by
  induction l with
  | nil => simp [List.isPrefixOf]
  | cons a as ih => simp [List.isPrefixOf, ih]

theorem isPrefixOfLenLe (l1 l2 : List Char) (h : l1.isPrefixOf l2 = true) :
    l1.length ≤ l2.length := by
  induction l1 generalizing l2 with
  | nil => simp
  | cons a as ih =>
    cases l2 with
    | nil => simp [List.isPrefixOf] at h
    | cons b bs =>
      simp only [List.isPrefixOf, Bool.and_eq_true] at h
      have := ih bs h.2
      simp
      omega

theorem startsWithOfLonger (s pre : String) (h : s.data.length < pre.data.length) :
    strStartsWith s pre = false := by
  rw [Bool.eq_false_iff]
  intro hc
  have := isPrefixOfLenLe pre.data s.data hc
  omega

theorem startsWith_mkPath_append (bs er : List String) (h : er ≠ []) :
    strStartsWith (mkPath (bs ++ er)) (mkPath bs) = true := by
  cases hbs : bs with
  | nil =>
    show (("/" : String).data).isPrefixOf (mkPath er).data = true
    rw [mkPath_data_of_ne_nil er h]
    have hq : ("/" : String).data = ['/'] := rfl
    rw [hq]
    cases er with
    | nil => exact absurd rfl h
    | cons c t => rw [flatComps_cons]; simp [List.isPrefixOf]
  | cons b t =>
    rw [← hbs]
    show ((mkPath bs).data).isPrefixOf (mkPath (bs ++ er)).data = true
    rw [mkPath_data_of_ne_nil bs (by simp [hbs]),
        mkPath_data_of_ne_nil (bs ++ er) (by simp [hbs]), flatComps_append]
    exact isPrefixOfAppendSelf _ _

theorem dropWhileAppendAll (p : Char → Bool) (l1 l2 : List Char)
    (h : ∀ x ∈ l1, p x = true) : (l1 ++ l2).dropWhile p = l2.dropWhile p := by
  induction l1 with
  | nil => rfl
  | cons a as ih =>
    have ha := h a (by simp)
    simp only [List.cons_append, List.dropWhile_cons, ha, if_true]
    exact ih (fun x hx => h x (by simp [hx]))

theorem dirname_mkPath_append (cs : List String) (c : String) (hc : okComp c) :
    dirname (mkPath (cs ++ [c])) = mkPath cs := by
  have hdata : (mkPath (cs ++ [c])).data = flatComps cs ++ '/' :: c.data := by
    rw [mkPath_data_of_ne_nil _ (by simp), flatComps_append, flatComps_single]
  unfold dirname
  rw [hdata]
  have hrev : (flatComps cs ++ '/' :: c.data).reverse =
      c.data.reverse ++ '/' :: (flatComps cs).reverse := by
    simp
  rw [hrev]
  have hnos : ∀ x ∈ c.data.reverse, (decide (x ≠ '/')) = true := by
    intro x hx
    rw [List.mem_reverse] at hx
    have : x ≠ '/' := by
      intro he
      rw [he] at hx
      exact hc.2.2.2.1 hx
    simp [this]
  rw [dropWhileAppendAll _ _ _ hnos]
  have hstop : List.dropWhile (fun x => decide (x ≠ '/')) ('/' :: (flatComps cs).reverse) =
      '/' :: (flatComps cs).reverse := by
    rw [List.dropWhile_cons]
    simp
  rw [hstop]
  simp only [List.drop_succ_cons, List.drop_zero, List.reverse_reverse]
  cases hcs : cs with
  | nil => simp [flatComps, mkPath]
  | cons b t =>
    rw [← hcs]
    have hne : flatComps cs ≠ [] := by
      intro he
      have := flatComps_length_pos cs (by simp [hcs])
      rw [he] at this
      simp at this
    rw [if_neg hne, ← mkPath_data_of_ne_nil cs (by simp [hcs])]

theorem getLast?_some_mem {α : Type _} (l : List α) (a : α) (h : l.getLast? = some a) :
    a ∈ l := by
  induction l with
  | nil => cases h
  | cons b t ih =>
    cases t with
    | nil =>
      simp at h
      simp [h]
    | cons c u =>
      rw [List.getLast?_cons_cons] at h
      exact List.mem_cons_of_mem _ (ih h)

theorem endsWith_mkPath (cs : List String) (hok : okComps cs) (h : cs ≠ []) :
    strEndsWith (mkPath cs) "/" = false := by
  rw [Bool.eq_false_iff]
  intro hc
  have hsfx : ("/" : String).data <:+ (mkPath cs).data := by
    rwa [← List.isSuffixOf_iff_suffix]
  obtain ⟨t, ht⟩ := hsfx
  obtain ⟨bs, c, hbc⟩ := (List.eq_nil_or_concat cs).resolve_left h
  rw [List.concat_eq_append] at hbc
  have hdata : (mkPath cs).data = flatComps bs ++ '/' :: c.data := by
    rw [mkPath_data_of_ne_nil cs h, hbc, flatComps_append, flatComps_single]
  have hlast1 : (mkPath cs).data.getLast? = some '/' := by
    rw [← ht]
    have hq : ("/" : String).data = ['/'] := rfl
    rw [hq, List.getLast?_append_cons]
    rfl
  have hcok : okComp c := hok c (by simp [hbc])
  have hcne : c.data ≠ [] := by
    intro hd
    exact hcok.1 (by cases c; simp at hd; rw [hd])
  obtain ⟨c0, cs0, hc0⟩ := List.exists_cons_of_ne_nil hcne
  have hlast2 : (mkPath cs).data.getLast? = (c0 :: cs0).getLast? := by
    rw [hdata, List.getLast?_append_cons, hc0, List.getLast?_cons_cons]
  rw [hlast2] at hlast1
  have hmem : '/' ∈ c.data := by
    rw [hc0]
    exact getLast?_some_mem _ _ hlast1
  exact hcok.2.2.2.1 hmem



theorem filterLenLtOfMemNot {α : Type _} (p : α → Bool) (l : List α) (x : α)
    (hm : x ∈ l) (hx : p x = false) : (l.filter p).length < l.length := by
  induction l with
  | nil => cases hm
  | cons a t ih =>
    rcases List.mem_cons.mp hm with h | h
    · subst h
      rw [List.filter_cons, hx]
      have := List.length_filter_le p t
      simp
      omega
    · rw [List.filter_cons]
      cases hp : p a
      · have := ih h
        simp
        omega
      · have := ih h
        simp
        omega

theorem removeNodeFS_length_lt (fs : FS) (p : String) (h : (statFS fs p).isSome = true) :
    (removeNodeFS fs p).nodes.length < fs.nodes.length := by
  unfold statFS at h
  cases hf : fs.nodes.find? (fun e => e.1 == p) with
  | none => rw [hf] at h; cases h
  | some e =>
    have hbeq := List.find?_some hf
    have hmem : e ∈ fs.nodes := List.mem_of_find?_eq_some hf
    have hpred : (fun x => x.1 != p) e = false := by
      simp only [bne, hbeq, Bool.not_true]
    exact filterLenLtOfMemNot _ _ _ hmem hpred

theorem removeEmptyDirectory_removed_eq (fs : FS) (p : String)
    (h : (removeEmptyDirectory fs p).2.1.removed = true) :
    statFS fs p = some .dir ∧
    removeEmptyDirectory fs p =
      (removeNodeFS fs p, ⟨true, "empty_directory_removed"⟩, [.rmdirEv p]) := by
  unfold removeEmptyDirectory at h ⊢
  dsimp only at h ⊢
  split at h
  · simp at h
  · simp at h
  · next heq =>
    rw [heq]
    refine ⟨rfl, ?_⟩
    split at h
    · simp at h
    · next h1 =>
      split at h
      · simp at h
      · next h2 =>
        rw [if_neg h1, if_neg h1, if_neg h2]

theorem removeEmptyDirectory_shrink (fs : FS) (p : String)
    (h : (removeEmptyDirectory fs p).2.1.removed = true) :
    (removeEmptyDirectory fs p).1.nodes.length < fs.nodes.length := by
  obtain ⟨hs, heq⟩ := removeEmptyDirectory_removed_eq fs p h
  rw [heq]
  exact removeNodeFS_length_lt fs p (by rw [hs]; rfl)

/-- The contiguous upward chain `start, parent(start), …` strictly below the
boundary components `bs`. -/
def ancChain (bs : List String) (rest : List String) : List String :=
  if h : rest = [] then [] else mkPath (bs ++ rest) :: ancChain bs rest.dropLast
termination_by rest.length
decreasing_by
  have : 0 < rest.length := List.length_pos.mpr h
  rw [List.length_dropLast]
  omega

theorem ancChain_nil (bs : List String) : ancChain bs [] = [] := by
  unfold ancChain
  rfl

theorem ancChain_ne (bs rest : List String) (h : rest ≠ []) :
    ancChain bs rest = mkPath (bs ++ rest) :: ancChain bs rest.dropLast := by
  rw [ancChain]
  rw [dif_neg h]

theorem ancChain_mem_aux : ∀ (n : Nat) (rest bs : List String) (q : String),
    rest.length ≤ n → q ∈ ancChain bs rest →
    ∃ er, er ≠ [] ∧ (∃ s, er ++ s = rest) ∧ q = mkPath (bs ++ er) := by
  intro n
  induction n with
  | zero =>
    intro rest bs q hlen hq
    have : rest = [] := List.length_eq_zero.mp (Nat.le_zero.mp hlen)
    rw [this, ancChain_nil] at hq
    cases hq
  | succ m ih =>
    intro rest bs q hlen hq
    rcases eq_or_ne rest [] with hr | hr
    · rw [hr, ancChain_nil] at hq
      cases hq
    · rw [ancChain_ne bs rest hr] at hq
      rcases List.mem_cons.mp hq with h | h
      · exact ⟨rest, hr, ⟨[], by simp⟩, h⟩
      · have hlen2 : rest.dropLast.length ≤ m := by
          rw [List.length_dropLast]
          have : 0 < rest.length := List.length_pos.mpr hr
          omega
        obtain ⟨er, hne, ⟨s, hs⟩, hq2⟩ := ih rest.dropLast bs q hlen2 h
        obtain ⟨bs2, c, hbc⟩ := (List.eq_nil_or_concat rest).resolve_left hr
        rw [List.concat_eq_append] at hbc
        refine ⟨er, hne, ⟨s ++ [c], ?_⟩, hq2⟩
        rw [hbc, List.dropLast_concat] at hs
        rw [hbc, ← List.append_assoc, hs]

theorem ancChain_mem (rest bs : List String) (q : String) (hq : q ∈ ancChain bs rest) :
    ∃ er, er ≠ [] ∧ (∃ s, er ++ s = rest) ∧ q = mkPath (bs ++ er) :=
  ancChain_mem_aux rest.length rest bs q (Nat.le_refl _) hq

/-- Each element of the list is followed by its `dirname`. -/
def isUpChain : List String → Bool
  | [] => true
  | [_] => true
  | a :: b :: t => (dirname a == b) && isUpChain (b :: t)

theorem isUpChain_take : ∀ (l : List String) (k : Nat), isUpChain l = true →
    isUpChain (l.take k) = true
  | [], _, _ => by simp [isUpChain]
  | [a], k, h => by
    cases k with
    | zero => rfl
    | succ m => simp [isUpChain]
  | a :: b :: t, 0, _ => rfl
  | a :: b :: t, 1, _ => rfl
  | a :: b :: t, (k + 2), h => by
    simp only [isUpChain, Bool.and_eq_true] at h
    simp only [List.take, isUpChain, Bool.and_eq_true]
    exact ⟨h.1, isUpChain_take (b :: t) (k + 1) h.2⟩

theorem ancChain_isUpChain_aux : ∀ (n : Nat) (rest bs : List String), rest.length ≤ n →
    okComps (bs ++ rest) → isUpChain (ancChain bs rest) = true := by
  intro n
  induction n with
  | zero =>
    intro rest bs hlen _
    have : rest = [] := List.length_eq_zero.mp (Nat.le_zero.mp hlen)
    rw [this, ancChain_nil]
    rfl
  | succ m ih =>
    intro rest bs hlen hok
    rcases eq_or_ne rest [] with hr | hr
    · rw [hr, ancChain_nil]; rfl
    · rw [ancChain_ne bs rest hr]
      obtain ⟨rest2, c, hbc⟩ := (List.eq_nil_or_concat rest).resolve_left hr
      rw [List.concat_eq_append] at hbc
      have hdl : rest.dropLast = rest2 := by rw [hbc, List.dropLast_concat]
      have hlen2 : rest.dropLast.length ≤ m := by
        rw [List.length_dropLast]
        have : 0 < rest.length := List.length_pos.mpr hr
        omega
      have hok2 : okComps (bs ++ rest.dropLast) := by
        intro x hx
        apply hok
        rcases List.mem_append.mp hx with h | h
        · exact List.mem_append.mpr (Or.inl h)
        · rw [hdl] at h
          exact List.mem_append.mpr (Or.inr (by rw [hbc]; exact List.mem_append.mpr (Or.inl h)))
      have hchain := ih rest.dropLast bs hlen2 hok2
      rcases eq_or_ne rest.dropLast [] with hr2 | hr2
      · rw [hr2, ancChain_nil]
        rfl
      · rw [ancChain_ne bs rest.dropLast hr2]
        rw [ancChain_ne bs rest.dropLast hr2] at hchain
        simp only [isUpChain, Bool.and_eq_true]
        constructor
        · have hdir : dirname (mkPath (bs ++ rest)) = mkPath (bs ++ rest.dropLast) := by
            rw [hbc, List.dropLast_concat, ← List.append_assoc]
            exact dirname_mkPath_append (bs ++ rest2) c
              (hok c (by rw [hbc]; simp))
          rw [hdir]
          simp
        · exact hchain

theorem ancChain_isUpChain (rest bs : List String) (hok : okComps (bs ++ rest)) :
    isUpChain (ancChain bs rest) = true :=
  ancChain_isUpChain_aux rest.length rest bs (Nat.le_refl _) hok


/-! ## Claim C1 -/

/-- A move request whose destination parent is the protected system directory
`/etc`. -/
def mvInC1 : MoveFileInput := ⟨"/h/p/a/f.txt", "/etc/g.txt", false⟩

/-- A populated source directory and an empty destination for organizing. -/
def fsOrgC1 : FS :=
  ⟨[("/h", .dir), ("/h/p", .dir), ("/h/p/s", .dir), ("/h/p/s/a.txt", .file [1]),
    ("/h/p/d", .dir)], [], [], fun _ => "2024-01"⟩

def orgInC1 : OrganizeByTypeInput := ⟨"/h/p/s", "/h/p/d", .extension, false⟩

/-- Claim C1, as stated, is false: the file-move operation attempts filesystem
mutations (`mkdir` of the destination parent — here the protected `/etc` — and
`rename`) while `validateDeletion` is never evaluated, so its trace contains
mutations with no preceding policy check. -/
theorem C1_counterexample :
    (moveFileTool fsA mvInC1).events =
      [Event.mkdirEv "/etc", Event.renameEv "/h/p/a/f.txt" "/etc/g.txt"] ∧
    mutationFree (moveFileTool fsA mvInC1).events = false ∧
    policedEvents (moveFileTool fsA mvInC1).events = false := by
  refine ⟨by decide, by decide, by decide⟩

/-- Claim C1 amended: for the file-deletion and directory-deletion tools,
every attempted filesystem mutation is preceded in the trace by an approving
`validateDeletion`; the organize-by-type operation (like file move) performs
its `mkdir`/`rename` mutations without any policy validation at all. -/
theorem C1_amended_thm :
    (∀ ctx fs input, policedEvents (deleteFileTool ctx fs input).events = true) ∧
    (∀ ctx fs input, policedEvents (deleteDirectoryTool ctx fs input).events = true) ∧
    (mutationFree (organizeByTypeTool fsOrgC1 orgInC1).events = false ∧
     policedEvents (organizeByTypeTool fsOrgC1 orgInC1).events = false) :=
  ⟨deleteFileTool_policed, deleteDirectoryTool_policed, by decide, by decide⟩

/-! ## Claim C2 -/

/-- The spec's own example: allow-list `["/home/u/projects"]`, home `/home/u`
(so `/home/u` is among the protected paths). -/
def ctxC2 : Ctx :=
  ⟨"/home/u", "/", false, false, some (some (["/home/u/projects"], [], [])),
   fun _ => true, fun _ _ => false, fun c => toString c⟩

/-- Claim C2, as stated, is false: deleting `"/home/u"` is rejected, but with
reason `OUTSIDE_ALLOWED_SCOPE` — the scope check runs first and short-circuits
before the protected-path check — not with the claimed `PROTECTED_PATH`. -/
theorem C2_counterexample :
    (validateDeletion ctxC2 "/home/u").toOption.map SafetyCheckResult.reason =
      some (some "OUTSIDE_ALLOWED_SCOPE") ∧
    (validateDeletion ctxC2 "/home/u").toOption.map SafetyCheckResult.reason ≠
      some (some "PROTECTED_PATH") := by
  refine ⟨by decide, by decide⟩

/-- Claim C2 amended: `validateDeletion("/home/u/projects/tmp/a.txt")`
approves; `validateDeletion("/home/u")` rejects, but with reason
`OUTSIDE_ALLOWED_SCOPE`, because the scope check precedes the protection
check; the protected-path check, had it been consulted, would indeed report
an exact `PROTECTED_PATH` match for `/home/u`. -/
theorem C2_amended_thm :
    validateDeletion ctxC2 "/home/u/projects/tmp/a.txt" = .ok ⟨true, none, none⟩ ∧
    (validateDeletion ctxC2 "/home/u").toOption.map SafetyCheckResult.reason =
      some (some "OUTSIDE_ALLOWED_SCOPE") ∧
    (isPathProtected ctxC2 "/home/u").reason = some "PROTECTED_PATH" := by
  refine ⟨by decide, by decide, by decide⟩

/-! ## Claim C3 -/

/-- Claim C3: with an empty allow-list in effect, `validateDeletion` rejects
every path with reason `NO_ALLOWED_PATHS`, before any other check (in
particular before the pattern compilation that could throw). -/
theorem C3_thm (ctx : Ctx) (P : String) :
    validateDeletionWith ctx [] P =
      .ok ⟨false, some "NO_ALLOWED_PATHS",
           some "No allowed paths configured. Please configure allowedPaths in your config file."⟩ :=
  rfl

/-! ## Claim C4 -/

/-- Claim C4: a directory-deletion request with `recursive` set and
`confirmRecursive` unset never mutates the filesystem and is rejected
(`executed = false`); when the policy check alone passes, the rejection
carries the distinct recursive-requires-confirmation message. -/
theorem C4_thm (ctx : Ctx) (fs : FS) (input : DeleteDirectoryInput)
    (hrec : input.recursive = true) (hconf : input.confirmRecursive = false) :
    (deleteDirectoryTool ctx fs input).fs = fs ∧
    mutationFree (deleteDirectoryTool ctx fs input).events = true ∧
    (∀ r, (deleteDirectoryTool ctx fs input).res = .ok r → r.executed = false) ∧
    (∀ sc, validateDeletion ctx (resolve ctx input.path) = .ok sc → sc.safe = true →
      (deleteDirectoryTool ctx fs input).res = .ok
        ⟨false,
         "BLOCKED: Recursive deletion requires confirmRecursive=true as explicit confirmation",
         none, true, none, ⟨true, true, getAllowedPaths ctx⟩, none⟩) := by
  have hgate : (input.recursive && ! input.confirmRecursive) = true := by
    rw [hrec, hconf]; rfl
  unfold deleteDirectoryTool
  dsimp only
  cases hv : validateDeletion ctx (resolve ctx input.path) with
  | error e =>
    refine ⟨rfl, rfl, ?_, ?_⟩
    · intro r hr; cases hr
    · intro sc hsc; cases hsc
  | ok sc =>
    cases hsafe : sc.safe with
    | true =>
      simp only [hsafe, if_true, hgate]
      refine ⟨trivial, rfl, ?_, ?_⟩
      · intro r hr
        cases hr
        rfl
      · intro sc2 hsc2 _
        injection hsc2 with h2
        subst h2
        rw [hrec]
    | false =>
      simp only [hsafe, Bool.false_eq_true, if_false]
      refine ⟨trivial, rfl, ?_, ?_⟩
      · intro r hr
        cases hr
        rfl
      · intro sc2 hsc2 hs2
        injection hsc2 with h2
        subst h2
        rw [hs2] at hsafe
        cases hsafe

def ddInC4 : DeleteDirectoryInput := ⟨"/h/p/a", false, true, false⟩

/-- Witness for C4 at a concrete request that the policy check approves. -/
theorem C4_witness :
    ddInC4.recursive = true ∧ ddInC4.confirmRecursive = false ∧
    ((deleteDirectoryTool ctxA fsA ddInC4).fs = fsA ∧
     mutationFree (deleteDirectoryTool ctxA fsA ddInC4).events = true ∧
     (∀ r, (deleteDirectoryTool ctxA fsA ddInC4).res = .ok r → r.executed = false) ∧
     (∀ sc, validateDeletion ctxA (resolve ctxA ddInC4.path) = .ok sc → sc.safe = true →
       (deleteDirectoryTool ctxA fsA ddInC4).res = .ok
         ⟨false,
          "BLOCKED: Recursive deletion requires confirmRecursive=true as explicit confirmation",
          none, true, none, ⟨true, true, getAllowedPaths ctxA⟩, none⟩)) :=
  ⟨rfl, rfl, C4_thm ctxA fsA ddInC4 rfl rfl⟩

/-! ## Claim C5 -/

def ddInC5 : DeleteDirectoryInput := ⟨"/h/p/a", false, false, false⟩

/-- Claim C5, as stated, is false: non-recursive deletion of a non-empty
directory does name the item count and mutates nothing, but it surfaces as a
*thrown* error (`Failed to delete directory: ...`), not as the claimed
structured non-exceptional rejection result. -/
theorem C5_counterexample :
    (deleteDirectoryTool ctxA fsA ddInC5).res =
      .error "Failed to delete directory: Directory is not empty (1 items). Use recursive=true and confirmRecursive=true to delete anyway." ∧
    (deleteDirectoryTool ctxA fsA ddInC5).fs.nodes = fsA.nodes ∧
    mutationFree (deleteDirectoryTool ctxA fsA ddInC5).events = true := by
  refine ⟨by decide, by decide, by decide⟩

/-- Claim C5 amended: non-recursive deletion of a directory with `n ≥ 1`
entries always fails, names the item count, instructs the caller to use
recursive+confirmed deletion, and performs no deletion at all — but the
failure is a thrown error message, not a structured policy rejection. -/
theorem C5_amended_thm (ctx : Ctx) (fs : FS) (input : DeleteDirectoryInput)
    (sc : SafetyCheckResult) (n : Nat)
    (hv : validateDeletion ctx (resolve ctx input.path) = .ok sc)
    (hsafe : sc.safe = true)
    (hrec : input.recursive = false)
    (hprev : input.preview = false)
    (hstat : statFS fs (resolve ctx input.path) = some .dir)
    (hn : (childrenOf fs (resolve ctx input.path)).length = n)
    (hpos : 0 < n) :
    (deleteDirectoryTool ctx fs input).res =
      .error s!"Failed to delete directory: Directory is not empty ({n} items). Use recursive=true and confirmRecursive=true to delete anyway." ∧
    (deleteDirectoryTool ctx fs input).fs = fs ∧
    mutationFree (deleteDirectoryTool ctx fs input).events = true := by
  have hgate : (input.recursive && ! input.confirmRecursive) = false := by
    rw [hrec]; rfl
  unfold deleteDirectoryTool
  dsimp only
  rw [hv]
  simp only [hsafe, if_true, hgate, Bool.false_eq_true, if_false, hstat, hprev, hrec,
    Bool.not_false, if_true, hn]
  rw [if_pos hpos]
  exact ⟨rfl, rfl, rfl⟩

/-- Witness for the amended C5 at the concrete one-entry directory. -/
theorem C5_witness :
    validateDeletion ctxA (resolve ctxA ddInC5.path) = .ok ⟨true, none, none⟩ ∧
    (childrenOf fsA (resolve ctxA ddInC5.path)).length = 1 ∧
    ((deleteDirectoryTool ctxA fsA ddInC5).res =
      .error "Failed to delete directory: Directory is not empty (1 items). Use recursive=true and confirmRecursive=true to delete anyway." ∧
     (deleteDirectoryTool ctxA fsA ddInC5).fs = fsA ∧
     mutationFree (deleteDirectoryTool ctxA fsA ddInC5).events = true) :=
  ⟨by decide, by decide,
   C5_amended_thm ctxA fsA ddInC5 ⟨true, none, none⟩ 1 (by decide) rfl rfl rfl
     (by decide) (by decide) (by decide)⟩

/-! ## Claim C7 -/

/-- A configuration file that parses (Zod accepts string lists) but whose
single user pattern source `"("` is not valid regular-expression syntax. -/
def ctxC7 : Ctx :=
  ⟨"/h", "/", false, false, some (some ([], [], ["("])),
   fun s => s != "(", fun _ _ => false, fun _ => ""⟩

/-- Claim C7, as stated, is false: with an invalid user pattern the
configuration load itself succeeds (keeping the raw source string), and the
`SyntaxError` from `new RegExp` surfaces only at the first policy evaluation
that compiles the patterns (`getProtectedPatterns`, reached through
`validateDeletion`). -/
theorem C7_counterexample :
    loadConfig ctxC7 = ⟨[], [], ["("]⟩ ∧
    getProtectedPatterns ctxC7 = .error "Invalid regular expression: (" ∧
    validateDeletion ctxC7 "/h/projects/x" = .error "Invalid regular expression: (" := by
  refine ⟨by decide, by decide, by decide⟩

/-- Claim C7 amended: a missing or malformed configuration file falls back to
the built-in defaults without failing; configuration load never fails — a
syntactically invalid user pattern is kept as a string and only throws at the
first policy evaluation that compiles the patterns. -/
theorem C7_amended_thm (ctx : Ctx) :
    (ctx.configFileRaw = none → loadConfig ctx = emptyRawConfig) ∧
    (ctx.configFileRaw = some none → loadConfig ctx = emptyRawConfig) ∧
    ((getProtectedPatterns ctx).isOk =
      (loadConfig ctx).additionalProtectedPatterns.all ctx.regexValid) ∧
    (∀ e n, getProtectedPatterns ctx = .error e → isNameProtected ctx n = .error e) := by
  refine ⟨fun h => by simp [loadConfig, h], fun h => by simp [loadConfig, h], ?_, ?_⟩
  · unfold getProtectedPatterns
    dsimp only
    cases h : (loadConfig ctx).additionalProtectedPatterns.find? (fun p => ! ctx.regexValid p) with
    | none =>
      rw [List.find?_eq_none] at h
      have hall : ((loadConfig ctx).additionalProtectedPatterns.all ctx.regexValid) = true := by
        rw [List.all_eq_true]
        intro x hx
        simpa using h x hx
      simp [Except.isOk, Except.toBool, hall]
    | some bad =>
      have hmem := List.mem_of_find?_eq_some h
      have hbad := List.find?_some h
      have hall : ((loadConfig ctx).additionalProtectedPatterns.all ctx.regexValid) = false := by
        rw [Bool.eq_false_iff]
        intro hall
        rw [List.all_eq_true] at hall
        have := hall bad hmem
        rw [this] at hbad
        simp at hbad
      simp [Except.isOk, Except.toBool, hall]
  · intro e n h
    unfold isNameProtected
    rw [h]

/-- A context whose configuration file is missing. -/
def ctxC10 : Ctx :=
  ⟨"/h", "/", false, false, none, fun _ => true, fun _ _ => false, fun _ => ""⟩

/-- Witness for the amended C7: a missing file loads as defaults, and the
invalid pattern of `ctxC7` throws at the first policy use. -/
theorem C7_witness :
    loadConfig ctxC10 = emptyRawConfig ∧
    isNameProtected ctxC7 "x" = .error "Invalid regular expression: (" :=
  ⟨(C7_amended_thm ctxC10).1 rfl,
   (C7_amended_thm ctxC7).2.2.2 "Invalid regular expression: (" "x" (by decide)⟩

/-! ## Claim C10 -/

theorem getAllowedPaths_ne_nil (ctx : Ctx) : getAllowedPaths ctx ≠ [] := by
  unfold getAllowedPaths
  dsimp only
  split
  · next h =>
    intro hc
    rw [List.map_eq_nil_iff] at hc
    rw [hc] at h
    simp at h
  · simp [getDefaultAllowedPaths]

/-- Claim C10: when the loaded configuration has an empty `allowedPaths`
list (in particular when the file is missing), `getAllowedPaths` returns the
fixed non-empty built-in default list; in every context the allow-list in
effect is non-empty, so the `NO_ALLOWED_PATHS` branch of
`isWithinAllowedScope` is unreachable through the configuration path. -/
theorem C10_thm (ctx : Ctx) (p : String) :
    ((loadConfig ctx).allowedPaths = [] → getAllowedPaths ctx = getDefaultAllowedPaths ctx) ∧
    getAllowedPaths ctx ≠ [] ∧
    (isWithinAllowedScope ctx p).reason ≠ some "NO_ALLOWED_PATHS" := by
  refine ⟨fun h => by simp [getAllowedPaths, h], getAllowedPaths_ne_nil ctx, ?_⟩
  have h0 : (getAllowedPaths ctx).length ≠ 0 := by
    intro hc
    exact getAllowedPaths_ne_nil ctx (List.length_eq_zero.mp hc)
  unfold isWithinAllowedScope isWithinAllowedScopeCore
  dsimp only
  rw [if_neg h0]
  split <;> simp

/-- Witness for C10 at the missing-configuration context. -/
theorem C10_witness :
    (loadConfig ctxC10).allowedPaths = [] ∧
    getAllowedPaths ctxC10 = getDefaultAllowedPaths ctxC10 ∧
    getAllowedPaths ctxC10 ≠ [] ∧
    (isWithinAllowedScope ctxC10 "/x").reason ≠ some "NO_ALLOWED_PATHS" :=
  ⟨rfl, (C10_thm ctxC10 "/x").1 rfl, (C10_thm ctxC10 "/x").2.1, (C10_thm ctxC10 "/x").2.2⟩

/-! ## Claim C6 -/


theorem startsWithEmpty (s : String) : strStartsWith s "" = true := by
  show (("" : String).data).isPrefixOf s.data = true
  have : ("" : String).data = [] := rfl
  rw [this]
  cases s.data <;> simp [List.isPrefixOf]

theorem cleanupWalk_succ (fuel : Nat) (fs : FS) (currentDir normalizedRoot : String) :
    cleanupWalk (fuel + 1) fs currentDir normalizedRoot =
      (if currentDir = "" ∨ currentDir = "/" ∨ currentDir = normalizedRoot then
        ⟨fs, [], [], []⟩
      else if ! strStartsWith currentDir normalizedRoot then
        ⟨fs, [], [(currentDir, "outside_root_boundary")], []⟩
      else
        match removeEmptyDirectory fs currentDir with
        | (fs2, result, evs) =>
          if result.removed then
            let rest := cleanupWalk fuel fs2 (dirname currentDir) normalizedRoot
            ⟨rest.fs, currentDir :: rest.removed, rest.skipped, evs ++ rest.events⟩
          else
            ⟨fs2, [], [(currentDir, result.reason)], evs⟩) := rfl

theorem cleanupWalk_spec : ∀ (fuel : Nat) (fs : FS) (bs rest : List String) (nr : String),
    okComps (bs ++ rest) →
    fs.nodes.length + 1 ≤ fuel →
    nr = (if bs = [] then "" else mkPath bs) →
    ∃ k, k ≤ rest.length ∧
      (cleanupWalk fuel fs (mkPath (bs ++ rest)) nr).removed = (ancChain bs rest).take k ∧
      ((k = rest.length ∧ (cleanupWalk fuel fs (mkPath (bs ++ rest)) nr).skipped = []) ∨
       (k < rest.length ∧ ∃ reason,
         (cleanupWalk fuel fs (mkPath (bs ++ rest)) nr).skipped =
           [(mkPath (bs ++ rest.take (rest.length - k)), reason)])) := by
  intro fuel
  induction fuel with
  | zero =>
    intro fs bs rest nr hok hfuel hnr
    omega
  | succ f ih =>
    intro fs bs rest nr hok hfuel hnr
    rcases eq_or_ne rest [] with hr | hr
    · subst hr
      have hcur : mkPath (bs ++ []) = mkPath bs := by rw [List.append_nil]
      have hguard : mkPath (bs ++ []) = "" ∨ mkPath (bs ++ []) = "/" ∨ mkPath (bs ++ []) = nr := by
        rcases eq_or_ne bs [] with hb | hb
        · subst hb
          exact Or.inr (Or.inl rfl)
        · rw [hnr, if_neg hb]
          exact Or.inr (Or.inr hcur)
      rw [cleanupWalk_succ, if_pos hguard]
      exact ⟨0, by simp, by rw [ancChain_nil]; rfl, Or.inl ⟨rfl, rfl⟩⟩
    · obtain ⟨rest2, c, hbc⟩ := (List.eq_nil_or_concat rest).resolve_left hr
      rw [List.concat_eq_append] at hbc
      have hdl : rest.dropLast = rest2 := by rw [hbc, List.dropLast_concat]
      have hokr : okComps (bs ++ rest2) := by
        intro x hx
        apply hok
        rcases List.mem_append.mp hx with hxx | hxx
        · exact List.mem_append.mpr (Or.inl hxx)
        · exact List.mem_append.mpr (Or.inr (by rw [hbc]; exact List.mem_append.mpr (Or.inl hxx)))
      have hne1 : mkPath (bs ++ rest) ≠ "" := mkPath_ne_empty _
      have hne2 : mkPath (bs ++ rest) ≠ "/" :=
        mkPath_ne_root _ hok (by simp [hr])
      have hne3 : mkPath (bs ++ rest) ≠ nr := by
        rcases eq_or_ne bs [] with hb | hb
        · rw [hnr, if_pos hb]
          exact hne1
        · rw [hnr, if_neg hb]
          exact mkPath_append_ne bs rest hok hr
      have hguard : ¬ (mkPath (bs ++ rest) = "" ∨ mkPath (bs ++ rest) = "/" ∨
          mkPath (bs ++ rest) = nr) := by
        push_neg
        exact ⟨hne1, hne2, hne3⟩
      have hsw : strStartsWith (mkPath (bs ++ rest)) nr = true := by
        rcases eq_or_ne bs [] with hb | hb
        · rw [hnr, if_pos hb]
          exact startsWithEmpty _
        · rw [hnr, if_neg hb]
          exact startsWith_mkPath_append bs rest hr
      rw [cleanupWalk_succ, if_neg hguard, hsw]
      simp only [Bool.not_true, Bool.false_eq_true, if_false]
      rcases hre : removeEmptyDirectory fs (mkPath (bs ++ rest)) with ⟨fs2, result, evs⟩
      cases hrem : result.removed with
      | false =>
        simp only [hrem, Bool.false_eq_true, if_false]
        refine ⟨0, by simp, by simp, Or.inr ⟨List.length_pos.mpr hr, result.reason, ?_⟩⟩
        rw [Nat.sub_zero, List.take_length]
      | true =>
        simp only [hrem, if_true]
        have hshr : fs2.nodes.length < fs.nodes.length := by
          have h1 : (removeEmptyDirectory fs (mkPath (bs ++ rest))).2.1.removed = true := by
            rw [hre, hrem]
          have h2 := removeEmptyDirectory_shrink fs (mkPath (bs ++ rest)) h1
          rw [hre] at h2
          exact h2
        have hdir : dirname (mkPath (bs ++ rest)) = mkPath (bs ++ rest2) := by
          rw [hbc, ← List.append_assoc]
          exact dirname_mkPath_append (bs ++ rest2) c (hok c (by rw [hbc]; simp))
        rw [hdir]
        obtain ⟨k2, hk2, hrem2, hcase2⟩ := ih fs2 bs rest2 nr hokr (by omega) hnr
        refine ⟨k2 + 1, ?_, ?_, ?_⟩
        · rw [hbc]
          simp
          omega
        · dsimp only
          rw [ancChain_ne bs rest hr, hdl, List.take_succ_cons, hrem2]
        · rcases hcase2 with ⟨hk2e, hsk⟩ | ⟨hk2l, reason, hsk⟩
          · left
            refine ⟨by rw [hbc]; simp; omega, ?_⟩
            dsimp only
            exact hsk
          · right
            refine ⟨by rw [hbc]; simp; omega, reason, ?_⟩
            dsimp only
            rw [hsk]
            have hlen : rest.length - (k2 + 1) = rest2.length - k2 := by
              rw [hbc]
              simp
            have htake : rest.take (rest.length - (k2 + 1)) = rest2.take (rest2.length - k2) := by
              rw [hlen, hbc, List.take_append_of_le_length (by omega)]
            rw [htake]



instance (cs : List String) : Decidable (okComps cs) := by
  unfold okComps
  infer_instance

/-- The filesystem of the C6 counterexample: boundary `/a`, start `/a/b`,
both directories empty enough for the walk to reach the boundary. -/
def fsC6 : FS := ⟨[("/a", .dir), ("/a/b", .dir)], [], [], fun _ => ""⟩

/-- Claim C6, as stated, is false: when every directory up to the boundary is
empty and removable, the walk terminates by *reaching the boundary* and
records no skipped entry — contradicting the claim that each terminal
condition produces a skipped record. -/
theorem C6_counterexample :
    (cleanupEmptyDirectories fsC6 "/a/b" "/a").removed = ["/a/b"] ∧
    (cleanupEmptyDirectories fsC6 "/a/b" "/a").skipped = [] := by
  refine ⟨by decide, by decide⟩

/-- Claim C6 amended: for a boundary `mkPath bs` that is a strict ancestor of
the start `mkPath (bs ++ rest)`, the `removed` list is a take-prefix of the
contiguous upward chain `start, parent(start), …`; it never contains the
boundary or any ancestor of it; and either the walk consumed the whole chain
and stopped silently at the boundary (no skipped record), or it stopped at
the first directory whose removal did not succeed, recording exactly that one
skipped entry — no path raises an error. -/
theorem C6_amended_thm (fs : FS) (bs rest : List String)
    (hok : okComps (bs ++ rest)) (hne : rest ≠ []) :
    ∃ k, k ≤ rest.length ∧
      (cleanupEmptyDirectories fs (mkPath (bs ++ rest)) (mkPath bs)).removed =
        (ancChain bs rest).take k ∧
      isUpChain ((cleanupEmptyDirectories fs (mkPath (bs ++ rest)) (mkPath bs)).removed) = true ∧
      (∀ q ∈ (cleanupEmptyDirectories fs (mkPath (bs ++ rest)) (mkPath bs)).removed,
        q ≠ mkPath bs ∧ strStartsWith (mkPath bs) (q ++ "/") = false) ∧
      ((k = rest.length ∧
          (cleanupEmptyDirectories fs (mkPath (bs ++ rest)) (mkPath bs)).skipped = []) ∨
       (k < rest.length ∧ ∃ reason,
          (cleanupEmptyDirectories fs (mkPath (bs ++ rest)) (mkPath bs)).skipped =
            [(mkPath (bs ++ rest.take (rest.length - k)), reason)])) := by
  have hokbs : okComps bs := fun c hc => hok c (List.mem_append.mpr (Or.inl hc))
  have hnr : (if strEndsWith (mkPath bs) "/" then strDropLast (mkPath bs) else mkPath bs) =
      (if bs = [] then "" else mkPath bs) := by
    rcases eq_or_ne bs [] with hb | hb
    · subst hb
      decide
    · rw [if_neg hb, endsWith_mkPath bs hokbs hb]
      rfl
  have hwalk : cleanupEmptyDirectories fs (mkPath (bs ++ rest)) (mkPath bs) =
      cleanupWalk (fs.nodes.length + 1) fs (mkPath (bs ++ rest))
        (if bs = [] then "" else mkPath bs) := by
    unfold cleanupEmptyDirectories
    rw [hnr]
  obtain ⟨k, hk, hrem, hcase⟩ :=
    cleanupWalk_spec (fs.nodes.length + 1) fs bs rest
      (if bs = [] then "" else mkPath bs) hok (Nat.le_refl _) rfl
  refine ⟨k, hk, by rw [hwalk]; exact hrem, ?_, ?_, ?_⟩
  · rw [hwalk, hrem]
    exact isUpChain_take _ k (ancChain_isUpChain rest bs hok)
  · intro q hq
    rw [hwalk, hrem] at hq
    have hq2 : q ∈ ancChain bs rest := List.mem_of_mem_take hq
    obtain ⟨er, hern, ⟨s, hs⟩, hqe⟩ := ancChain_mem rest bs q hq2
    have hoker : okComps (bs ++ er) := by
      intro x hx
      apply hok
      rcases List.mem_append.mp hx with hxx | hxx
      · exact List.mem_append.mpr (Or.inl hxx)
      · exact List.mem_append.mpr (Or.inr (by rw [← hs]; exact List.mem_append.mpr (Or.inl hxx)))
    constructor
    · rw [hqe]
      exact mkPath_append_ne bs er hoker hern
    · apply startsWithOfLonger
      have hlt := mkPath_length_lt bs er hoker hern
      have hdq : (q ++ "/").data = q.data ++ ('/' :: []) := by
        rw [String.data_append]
      rw [hdq, hqe]
      simp only [List.length_append, List.length_cons, List.length_nil]
      omega
  · rcases hcase with ⟨h1, h2⟩ | ⟨h1, reason, h2⟩
    · exact Or.inl ⟨h1, by rw [hwalk]; exact h2⟩
    · exact Or.inr ⟨h1, reason, by rw [hwalk]; exact h2⟩

/-- A three-level filesystem for the C6 witness: the walk removes the two
empty levels and stops silently at the boundary. -/
def fsC6w : FS := ⟨[("/a", .dir), ("/a/b", .dir), ("/a/b/c", .dir)], [], [], fun _ => ""⟩

/-- Witness for the amended C6 on a concrete three-level tree. -/
theorem C6_witness :
    okComps (["a"] ++ ["b", "c"]) ∧ (["b", "c"] : List String) ≠ [] ∧
    (∃ k, k ≤ (["b", "c"] : List String).length ∧
      (cleanupEmptyDirectories fsC6w (mkPath (["a"] ++ ["b", "c"])) (mkPath ["a"])).removed =
        (ancChain ["a"] ["b", "c"]).take k ∧
      isUpChain ((cleanupEmptyDirectories fsC6w (mkPath (["a"] ++ ["b", "c"]))
        (mkPath ["a"])).removed) = true ∧
      (∀ q ∈ (cleanupEmptyDirectories fsC6w (mkPath (["a"] ++ ["b", "c"]))
          (mkPath ["a"])).removed,
        q ≠ mkPath ["a"] ∧ strStartsWith (mkPath ["a"]) (q ++ "/") = false) ∧
      ((k = (["b", "c"] : List String).length ∧
          (cleanupEmptyDirectories fsC6w (mkPath (["a"] ++ ["b", "c"]))
            (mkPath ["a"])).skipped = []) ∨
       (k < (["b", "c"] : List String).length ∧ ∃ reason,
          (cleanupEmptyDirectories fsC6w (mkPath (["a"] ++ ["b", "c"]))
            (mkPath ["a"])).skipped =
            [(mkPath (["a"] ++ (["b", "c"] : List String).take
              ((["b", "c"] : List String).length - k)), reason)]))) :=
  ⟨by decide, by decide, C6_amended_thm fsC6w ["a"] ["b", "c"] (by decide) (by decide)⟩



/-! ## Claim C8 -/

theorem insertHash_hashes (m : List DupGroup) (h p : String) (s : Nat) :
    (insertHash m h p s).map (fun g => g.hash) =
      (if h ∈ m.map (fun g => g.hash) then m.map (fun g => g.hash)
       else m.map (fun g => g.hash) ++ [h]) := by
  induction m with
  | nil => simp [insertHash]
  | cons g rest ih =>
    by_cases hg : g.hash = h
    · simp [insertHash, hg]
    · simp only [insertHash, if_neg hg, List.map_cons, ih]
      by_cases hmem : h ∈ rest.map (fun g => g.hash)
      · rw [if_pos hmem, if_pos (by simp [hmem])]
      · rw [if_neg hmem, if_neg (by simp [hmem, Ne.symm hg])]
        simp

theorem insertHash_of_not_mem (m : List DupGroup) (h p : String) (s : Nat)
    (hnm : h ∉ m.map (fun g => g.hash)) :
    insertHash m h p s = m ++ [⟨h, [p], s⟩] := by
  induction m with
  | nil => rfl
  | cons g rest ih =>
    have hg : g.hash ≠ h := by
      intro he
      exact hnm (by simp [he])
    simp only [insertHash, if_neg hg, List.cons_append, List.cons.injEq, true_and]
    exact ih (fun hc => hnm (by simp [hc]))

theorem insertHash_mem_cases (m : List DupGroup) (h p : String) (s : Nat)
    (hnd : (m.map (fun g => g.hash)).Nodup) :
    ∀ g' ∈ insertHash m h p s,
      (g' ∈ m ∧ g'.hash ≠ h) ∨
      (∃ g ∈ m, g.hash = h ∧ g' = ⟨h, g.files ++ [p], g.size⟩) ∨
      (h ∉ m.map (fun g => g.hash) ∧ g' = ⟨h, [p], s⟩) := by
  induction m with
  | nil =>
    intro g' hg'
    simp [insertHash] at hg'
    exact Or.inr (Or.inr ⟨by simp, hg'⟩)
  | cons g rest ih =>
    have hnd2 : (rest.map (fun g => g.hash)).Nodup := (List.nodup_cons.mp hnd).2
    have hgnm : g.hash ∉ rest.map (fun g => g.hash) := (List.nodup_cons.mp hnd).1
    intro g' hg'
    by_cases hg : g.hash = h
    · rw [insertHash, if_pos hg] at hg'
      rcases List.mem_cons.mp hg' with he | he
      · exact Or.inr (Or.inl ⟨g, by simp, hg, he⟩)
      · by_cases hh : g'.hash = h
        · exfalso
          apply hgnm
          rw [hg, ← hh]
          exact List.mem_map.mpr ⟨g', he, rfl⟩
        · exact Or.inl ⟨by simp [he], hh⟩
    · rw [insertHash, if_neg hg] at hg'
      rcases List.mem_cons.mp hg' with he | he
      · subst he
        exact Or.inl ⟨by simp, hg⟩
      · rcases ih hnd2 g' he with ⟨h1, h2⟩ | ⟨g0, hg0, h1, h2⟩ | ⟨h1, h2⟩
        · exact Or.inl ⟨by simp [h1], h2⟩
        · exact Or.inr (Or.inl ⟨g0, by simp [hg0], h1, h2⟩)
        · refine Or.inr (Or.inr ⟨?_, h2⟩)
          intro hc
          rw [List.map_cons] at hc
          rcases List.mem_cons.mp hc with hc2 | hc2
          · exact hg hc2.symm
          · exact h1 hc2

/-- The digest an entry of distinct (non-`c`) content contributes to the scan,
if any. -/
def othDigest (ctx : Ctx) (fs : FS) (c : List Nat) (e : DirEntry) : Option String :=
  if e.kind = .file then
    match readFileFS fs e.path with
    | some d => if d = c then none else some (ctx.md5 d)
    | none => none
  else none

/-- The paths of the scanned file entries whose content is exactly `c`. -/
def dupPathsOf (fs : FS) (c : List Nat) (l : List DirEntry) : List String :=
  (l.filter (fun e => decide (e.kind = .file ∧ readFileFS fs e.path = some c))).map
    (fun e => e.path)

/-- Invariant of the duplicate-detection fold: hashes are distinct; the group
of the duplicated digest holds exactly the duplicate paths seen so far with
the shared size; every other group is a singleton. -/
def DupInv (ctx : Ctx) (c : List Nat) (m : List DupGroup) (dups : List String) : Prop :=
  (m.map (fun g => g.hash)).Nodup ∧
  (∀ g ∈ m, g.hash = ctx.md5 c → g.files = dups ∧ g.size = c.length) ∧
  (ctx.md5 c ∈ m.map (fun g => g.hash) ↔ dups ≠ []) ∧
  (∀ g ∈ m, g.hash ≠ ctx.md5 c → g.files.length = 1)

theorem DupInv_insert_other (ctx : Ctx) (c : List Nat) (m : List DupGroup)
    (dups : List String) (h p : String) (s : Nat) (hInv : DupInv ctx c m dups)
    (hne : h ≠ ctx.md5 c) (hnm : h ∉ m.map (fun g => g.hash)) :
    DupInv ctx c (insertHash m h p s) dups := by
  obtain ⟨h1, h2, h3, h4⟩ := hInv
  rw [insertHash_of_not_mem m h p s hnm]
  refine ⟨?_, ?_, ?_, ?_⟩
  · rw [List.map_append]
    simp [List.nodup_append, h1, hnm]
  · intro g hg hgD
    rcases List.mem_append.mp hg with hgm | hgm
    · exact h2 g hgm hgD
    · simp at hgm
      rw [hgm] at hgD
      exact absurd hgD hne
  · rw [List.map_append]
    simp only [List.map_cons, List.map_nil, List.mem_append, List.mem_singleton]
    constructor
    · intro hc
      rcases hc with hc | hc
      · exact h3.mp hc
      · exact absurd hc.symm hne
    · intro hc
      exact Or.inl (h3.mpr hc)
  · intro g hg hgD
    rcases List.mem_append.mp hg with hgm | hgm
    · exact h4 g hgm hgD
    · simp at hgm
      rw [hgm]
      rfl

theorem DupInv_insert_dup (ctx : Ctx) (c : List Nat) (m : List DupGroup)
    (dups : List String) (p : String) (hInv : DupInv ctx c m dups) :
    DupInv ctx c (insertHash m (ctx.md5 c) p c.length) (dups ++ [p]) := by
  obtain ⟨h1, h2, h3, h4⟩ := hInv
  by_cases hmem : ctx.md5 c ∈ m.map (fun g => g.hash)
  · refine ⟨?_, ?_, ?_, ?_⟩
    · rw [insertHash_hashes, if_pos hmem]
      exact h1
    · intro g hg hgD
      rcases insertHash_mem_cases m (ctx.md5 c) p c.length h1 g hg with
        ⟨hgm, hgne⟩ | ⟨g0, hg0, hg0D, hge⟩ | ⟨hnm, hge⟩
      · exact absurd hgD hgne
      · obtain ⟨hf, hsz⟩ := h2 g0 hg0 hg0D
        rw [hge]
        exact ⟨by rw [hf], by rw [hsz]⟩
      · exact absurd hmem hnm
    · rw [insertHash_hashes, if_pos hmem]
      simp [hmem]
    · intro g hg hgD
      rcases insertHash_mem_cases m (ctx.md5 c) p c.length h1 g hg with
        ⟨hgm, _⟩ | ⟨g0, hg0, hg0D, hge⟩ | ⟨hnm, hge⟩
      · exact h4 g hgm hgD
      · rw [hge] at hgD
        exact absurd rfl hgD
      · rw [hge] at hgD
        exact absurd rfl hgD
  · have hdups : dups = [] := by
      by_contra hc
      exact hmem (h3.mpr hc)
    rw [insertHash_of_not_mem m (ctx.md5 c) p c.length hmem]
    refine ⟨?_, ?_, ?_, ?_⟩
    · rw [List.map_append]
      simp [List.nodup_append, h1, hmem]
    · intro g hg hgD
      rcases List.mem_append.mp hg with hgm | hgm
      · exfalso
        exact hmem (List.mem_map.mpr ⟨g, hgm, hgD⟩)
      · simp at hgm
        rw [hgm, hdups]
        exact ⟨rfl, rfl⟩
    · rw [List.map_append]
      simp
    · intro g hg hgD
      rcases List.mem_append.mp hg with hgm | hgm
      · exact h4 g hgm hgD
      · simp at hgm
        rw [hgm] at hgD
        exact absurd rfl hgD

theorem dupFoldSpec : ∀ (l : List DirEntry) (ctx : Ctx) (fs : FS) (c : List Nat)
    (m : List DupGroup) (dups : List String),
    DupInv ctx c m dups →
    (∀ e ∈ l, e.kind = .file → readFileFS fs e.path = some c → e.size.getD 0 = c.length) →
    (∀ h ∈ l.filterMap (othDigest ctx fs c), h ≠ ctx.md5 c) →
    (l.filterMap (othDigest ctx fs c)).Pairwise (fun a b => a ≠ b) →
    (∀ h ∈ l.filterMap (othDigest ctx fs c), h ∉ m.map (fun g => g.hash)) →
    DupInv ctx c (l.foldl (dupStep ctx fs) m) (dups ++ dupPathsOf fs c l) := by
  intro l
  induction l with
  | nil =>
    intro ctx fs c m dups hInv _ _ _ _
    simpa [dupPathsOf] using hInv
  | cons e l2 ih =>
    intro ctx fs c m dups hInv hsize hcoll hpw hcross
    by_cases hk : e.kind = .file
    · cases hrf : readFileFS fs e.path with
      | none =>
        have hstep : dupStep ctx fs m e = m := by
          unfold dupStep
          rw [if_pos hk, hrf]
        have hoth : othDigest ctx fs c e = none := by
          unfold othDigest
          rw [if_pos hk, hrf]
        have hdup2 : dupPathsOf fs c (e :: l2) = dupPathsOf fs c l2 := by
          unfold dupPathsOf
          rw [List.filter_cons]
          simp [hrf]
        rw [List.foldl_cons, hstep, hdup2]
        refine ih ctx fs c m dups hInv (fun x hx => hsize x (by simp [hx]))
          (fun hh hhm => hcoll hh (by rw [List.filterMap_cons, hoth]; exact hhm)) ?_ ?_
        · rw [List.filterMap_cons, hoth] at hpw
          exact hpw
        · intro hh hhm
          apply hcross
          rw [List.filterMap_cons, hoth]
          exact hhm
      | some d =>
        by_cases hdc : d = c
        · rw [hdc] at hrf
          have hsz : e.size.getD 0 = c.length := hsize e (by simp) hk hrf
          have hstep : dupStep ctx fs m e = insertHash m (ctx.md5 c) e.path c.length := by
            unfold dupStep
            rw [if_pos hk, hrf, hsz]
          have hoth : othDigest ctx fs c e = none := by
            unfold othDigest
            rw [if_pos hk, hrf]
            simp
          have hdup2 : dupPathsOf fs c (e :: l2) = e.path :: dupPathsOf fs c l2 := by
            unfold dupPathsOf
            rw [List.filter_cons]
            simp [hk, hrf]
          rw [List.foldl_cons, hstep, hdup2]
          have hInv2 := DupInv_insert_dup ctx c m dups e.path hInv
          have hres := ih ctx fs c (insertHash m (ctx.md5 c) e.path c.length) (dups ++ [e.path])
            hInv2 (fun x hx => hsize x (by simp [hx]))
            (fun hh hhm => hcoll hh (by rw [List.filterMap_cons, hoth]; exact hhm)) ?_ ?_
          · rw [List.append_assoc] at hres
            exact hres
          · rw [List.filterMap_cons, hoth] at hpw
            exact hpw
          · intro hh hhm
            have hne : hh ≠ ctx.md5 c :=
              hcoll hh (by rw [List.filterMap_cons, hoth]; exact hhm)
            have hnm := hcross hh (by rw [List.filterMap_cons, hoth]; exact hhm)
            rw [insertHash_hashes]
            by_cases hmem : ctx.md5 c ∈ m.map (fun g => g.hash)
            · rw [if_pos hmem]
              exact hnm
            · rw [if_neg hmem]
              intro hc
              rcases List.mem_append.mp hc with hc2 | hc2
              · exact hnm hc2
              · simp at hc2
                exact hne hc2
        · have hstep : dupStep ctx fs m e = insertHash m (ctx.md5 d) e.path (e.size.getD 0) := by
            unfold dupStep
            rw [if_pos hk, hrf]
          have hoth : othDigest ctx fs c e = some (ctx.md5 d) := by
            unfold othDigest
            rw [if_pos hk, hrf]
            show (if d = c then (none : Option String) else some (ctx.md5 d)) = some (ctx.md5 d)
            rw [if_neg hdc]
          have hdup2 : dupPathsOf fs c (e :: l2) = dupPathsOf fs c l2 := by
            unfold dupPathsOf
            rw [List.filter_cons]
            simp [hrf, hdc]
          have hDne : ctx.md5 d ≠ ctx.md5 c :=
            hcoll (ctx.md5 d) (by rw [List.filterMap_cons, hoth]; simp)
          have hDnm : ctx.md5 d ∉ m.map (fun g => g.hash) := by
            apply hcross
            rw [List.filterMap_cons, hoth]
            simp
          rw [List.foldl_cons, hstep, hdup2]
          have hInv2 := DupInv_insert_other ctx c m dups (ctx.md5 d) e.path (e.size.getD 0)
            hInv hDne hDnm
          refine ih ctx fs c _ dups hInv2 (fun x hx => hsize x (by simp [hx]))
            (fun hh hhm => hcoll hh (by rw [List.filterMap_cons, hoth]; simp [hhm])) ?_ ?_
          · rw [List.filterMap_cons, hoth] at hpw
            exact (List.pairwise_cons.mp hpw).2
          · intro hh hhm
            have hnm := hcross hh (by rw [List.filterMap_cons, hoth]; simp [hhm])
            have hne2 : hh ≠ ctx.md5 d := by
              rw [List.filterMap_cons, hoth] at hpw
              have := (List.pairwise_cons.mp hpw).1 hh hhm
              exact fun hc => this hc.symm
            rw [insertHash_hashes, if_neg hDnm]
            intro hc
            rcases List.mem_append.mp hc with hc2 | hc2
            · exact hnm hc2
            · simp at hc2
              exact hne2 hc2
    · have hstep : dupStep ctx fs m e = m := by
        unfold dupStep
        rw [if_neg hk]
      have hoth : othDigest ctx fs c e = none := by
        unfold othDigest
        rw [if_neg hk]
      have hdup2 : dupPathsOf fs c (e :: l2) = dupPathsOf fs c l2 := by
        unfold dupPathsOf
        rw [List.filter_cons]
        simp [hk]
      rw [List.foldl_cons, hstep, hdup2]
      refine ih ctx fs c m dups hInv (fun x hx => hsize x (by simp [hx]))
        (fun hh hhm => hcoll hh (by rw [List.filterMap_cons, hoth]; exact hhm)) ?_ ?_
      · rw [List.filterMap_cons, hoth] at hpw
        exact hpw
      · intro hh hhm
        apply hcross
        rw [List.filterMap_cons, hoth]
        exact hhm

theorem dupFilter_none (m : List DupGroup) (h : ∀ g ∈ m, g.files.length ≤ 1) :
    m.filter (fun g => g.files.length > 1) = [] := by
  induction m with
  | nil => rfl
  | cons g rest ih =>
    rw [List.filter_cons, if_neg (by simpa using Nat.not_lt.mpr (h g (by simp)))]
    exact ih (fun x hx => h x (by simp [hx]))

theorem dupFilter_single (m : List DupGroup) (D : String) (dups : List String) (sz : Nat)
    (hnd : (m.map (fun g => g.hash)).Nodup)
    (hmem : D ∈ m.map (fun g => g.hash))
    (hD : ∀ g ∈ m, g.hash = D → g.files = dups ∧ g.size = sz)
    (hoth : ∀ g ∈ m, g.hash ≠ D → g.files.length = 1)
    (hN : 2 ≤ dups.length) :
    m.filter (fun g => g.files.length > 1) = [⟨D, dups, sz⟩] := by
  induction m with
  | nil => simp at hmem
  | cons g rest ih =>
    have hnd2 : (rest.map (fun x => x.hash)).Nodup := (List.nodup_cons.mp hnd).2
    have hgnm : g.hash ∉ rest.map (fun x => x.hash) := (List.nodup_cons.mp hnd).1
    by_cases hg : g.hash = D
    · obtain ⟨hf, hs⟩ := hD g (by simp) hg
      rw [List.filter_cons, if_pos (by simp only [hf]; exact decide_eq_true (by omega))]
      have hge : g = ⟨D, dups, sz⟩ := by
        cases g
        simp only at hf hs hg
        rw [hf, hs, hg]
      rw [hge]
      have hrest : rest.filter (fun g => g.files.length > 1) = [] := by
        apply dupFilter_none
        intro x hx
        have hxD : x.hash ≠ D := by
          intro hc
          apply hgnm
          rw [hg, ← hc]
          exact List.mem_map.mpr ⟨x, hx, rfl⟩
        rw [hoth x (by simp [hx]) hxD]
      rw [hrest]
    · have h1 : g.files.length = 1 := hoth g (by simp) hg
      rw [List.filter_cons, if_neg (by simp [h1])]
      have hmem2 : D ∈ rest.map (fun x => x.hash) := by
        rw [List.map_cons] at hmem
        rcases List.mem_cons.mp hmem with hc | hc
        · exact absurd hc.symm hg
        · exact hc
      exact ih hnd2 hmem2 (fun x hx => hD x (by simp [hx]))
        (fun x hx => hoth x (by simp [hx]))

/-- Claim C8: a scan whose file entries consist of the duplicate set (content
`c`, appearing on `dupPaths`, at least two of them, each carrying the shared
size), plus files whose reads fail, plus files of pairwise-distinct contents
whose digests differ from `c`'s, yields exactly one duplicate group: the
digest of `c` with exactly `dupPaths` and the shared size.  Unreadable files
are silently excluded, groups need at least two members, the distinct-content
files are all excluded. -/
theorem C8_thm (ctx : Ctx) (fs : FS) (path : String) (recursive : Bool)
    (entries : List DirEntry) (c : List Nat) (dupPaths : List String)
    (hlist : listDirectoryTool fs path recursive = .ok entries)
    (hdup : dupPathsOf fs c entries = dupPaths)
    (hN : 2 ≤ dupPaths.length)
    (hsize : ∀ e ∈ entries, e.kind = .file → readFileFS fs e.path = some c →
      e.size.getD 0 = c.length)
    (hcoll : ∀ h ∈ entries.filterMap (othDigest ctx fs c), h ≠ ctx.md5 c)
    (hpw : (entries.filterMap (othDigest ctx fs c)).Pairwise (fun a b => a ≠ b)) :
    findDuplicatesTool ctx fs path recursive = .ok [⟨ctx.md5 c, dupPaths, c.length⟩] := by
  have hInv0 : DupInv ctx c [] [] := ⟨by simp, by simp, by simp, by simp⟩
  have hfold := dupFoldSpec entries ctx fs c [] [] hInv0 hsize hcoll hpw (by simp)
  rw [List.nil_append, hdup] at hfold
  obtain ⟨h1, h2, h3, h4⟩ := hfold
  have hne : dupPaths ≠ [] := by
    intro hc
    rw [hc] at hN
    simp at hN
  unfold findDuplicatesTool
  rw [hlist]
  dsimp only
  unfold dupFold
  rw [dupFilter_single (entries.foldl (dupStep ctx fs) []) (ctx.md5 c) dupPaths c.length
    h1 (h3.mpr hne) h2 h4 hN]

def ctxC8 : Ctx :=
  ⟨"/h", "/", false, false, none, fun _ => true, fun _ _ => false, fun c => toString c⟩

/-- Two byte-identical files `/d/a` and `/d/b`, two files of distinct other
contents, and one unreadable file. -/
def fsC8 : FS :=
  ⟨[("/d", .dir), ("/d/a", .file [1]), ("/d/b", .file [1]), ("/d/c", .file [2]),
    ("/d/e", .file [3]), ("/d/u", .file [9])],
   ["/d/u"], [], fun _ => ""⟩

def entriesC8 : List DirEntry :=
  [⟨"a", "/d/a", .file, some 1⟩, ⟨"b", "/d/b", .file, some 1⟩,
   ⟨"c", "/d/c", .file, some 1⟩, ⟨"e", "/d/e", .file, some 1⟩,
   ⟨"u", "/d/u", .file, some 1⟩]

/-- Witness for C8: the concrete scan yields exactly one group with the two
byte-identical files and their shared size. -/
theorem C8_witness :
    listDirectoryTool fsC8 "/d" true = .ok entriesC8 ∧
    dupPathsOf fsC8 [1] entriesC8 = ["/d/a", "/d/b"] ∧
    findDuplicatesTool ctxC8 fsC8 "/d" true =
      .ok [⟨ctxC8.md5 [1], ["/d/a", "/d/b"], 1⟩] :=
  ⟨by decide, by decide,
   C8_thm ctxC8 fsC8 "/d" true entriesC8 [1] ["/d/a", "/d/b"]
     (by decide) (by decide) (by decide) (by decide) (by decide) (by decide)⟩



/-! ## Claim C9 -/

theorem splitCharsAux_ne_nil (seps : List Char) (l : List Char) :
    splitCharsAux seps l ≠ [] := by
  cases l with
  | nil => simp [splitCharsAux]
  | cons c rest =>
    unfold splitCharsAux
    split
    · simp
    · split <;> simp

theorem splitCharsAux_append_noSep (seps : List Char) (l1 l2 : List Char)
    (h : ∀ x ∈ l1, x ∉ seps) (g : List Char) (gs : List (List Char))
    (hg : splitCharsAux seps l2 = g :: gs) :
    splitCharsAux seps (l1 ++ l2) = (l1 ++ g) :: gs := by
  induction l1 with
  | nil => simpa using hg
  | cons c rest ih =>
    have hc : c ∉ seps := h c (by simp)
    have hrest := ih (fun x hx => h x (by simp [hx]))
    rw [List.cons_append]
    unfold splitCharsAux
    rw [if_neg hc, hrest]
    rfl

theorem splitCharsAux_flatComps (cs : List String) (hok : okComps cs) :
    splitCharsAux ['/'] (flatComps cs) = [] :: cs.map String.data := by
  induction cs with
  | nil => rfl
  | cons c rest ih =>
    have hrest := ih (fun x hx => hok x (by simp [hx]))
    have hcok : okComp c := hok c (by simp)
    have hnos : ∀ x ∈ c.data, x ∉ (['/'] : List Char) := by
      intro x hx hmem
      simp at hmem
      rw [hmem] at hx
      exact hcok.2.2.2.1 hx
    rw [flatComps_cons]
    show splitCharsAux ['/'] ('/' :: (c.data ++ flatComps rest)) = _
    unfold splitCharsAux
    rw [if_pos (by simp)]
    rw [splitCharsAux_append_noSep ['/'] c.data (flatComps rest) hnos [] (rest.map String.data)
      hrest]
    simp

theorem map_mk_data (cs : List String) : (cs.map String.data).map String.mk = cs := by
  induction cs with
  | nil => rfl
  | cons c rest ih => simp [ih]

theorem splitSlash_mkPath (cs : List String) (hok : okComps cs) (hne : cs ≠ []) :
    splitSlash (mkPath cs) = "" :: cs := by
  unfold splitSlash
  rw [mkPath_data_of_ne_nil cs hne, splitCharsAux_flatComps cs hok]
  show String.mk [] :: (cs.map String.data).map String.mk = _
  rw [map_mk_data]

/-- The components of a well-formed absolute path, recovered from the string. -/
def compsOf (p : String) : List String := (splitSlash p).drop 1

theorem compsOf_mkPath (cs : List String) (hok : okComps cs) (hne : cs ≠ []) :
    compsOf (mkPath cs) = cs := by
  unfold compsOf
  rw [splitSlash_mkPath cs hok hne]
  rfl

/-- A well-formed absolute path: the `/`-joined form of a nonempty list of
clean components. -/
def goodPath (p : String) : Prop :=
  compsOf p ≠ [] ∧ okComps (compsOf p) ∧ p = mkPath (compsOf p)

instance (cs : List String) : Decidable (okComps cs) := by
  unfold okComps; infer_instance

instance (p : String) : Decidable (goodPath p) := by
  unfold goodPath; infer_instance

theorem goodPath_mkPath (cs : List String) (hok : okComps cs) (hne : cs ≠ []) :
    goodPath (mkPath cs) := by
  refine ⟨?_, ?_, ?_⟩ <;> rw [compsOf_mkPath cs hok hne]
  · exact hne
  · exact hok

theorem normStep_ok (acc : List String) (c : String) (hc : okComp c) :
    normStep acc c = acc ++ [c] := by
  unfold normStep
  rw [if_neg (by rintro (h | h); exacts [hc.1 h, hc.2.1 h]), if_neg hc.2.2.1]

theorem foldl_normStep_ok (cs : List String) (hok : okComps cs) :
    ∀ acc, List.foldl normStep acc cs = acc ++ cs := by
  induction cs with
  | nil => intro acc; simp
  | cons c rest ih =>
    intro acc
    rw [List.foldl_cons, normStep_ok acc c (hok c (by simp)),
      ih (fun x hx => hok x (by simp [hx])) (acc ++ [c])]
    simp

theorem mkPath_startsWith_slash (cs : List String) :
    strStartsWith (mkPath cs) "/" = true := by
  cases cs with
  | nil => decide
  | cons c rest =>
    show (("/" : String).data).isPrefixOf (mkPath (c :: rest)).data = true
    rw [mkPath_data_of_ne_nil _ (by simp), flatComps_cons]
    have hq : ("/" : String).data = ['/'] := rfl
    rw [hq]
    simp [List.isPrefixOf]

theorem resolveAbs_mkPath (cs : List String) (hok : okComps cs) (hne : cs ≠ []) :
    resolveAbs (mkPath cs) = mkPath cs := by
  unfold resolveAbs normComps
  rw [splitSlash_mkPath cs hok hne, List.foldl_cons]
  have h0 : normStep [] "" = [] := by unfold normStep; rw [if_pos (by left; rfl)]
  rw [h0, foldl_normStep_ok cs hok []]
  simp

theorem resolve_good (ctx : Ctx) (p : String) (hp : goodPath p) :
    resolve ctx p = p := by
  obtain ⟨hne, hok, heq⟩ := hp
  unfold resolve
  rw [heq, if_pos (mkPath_startsWith_slash _), resolveAbs_mkPath _ hok hne]

theorem flatComps_getLast_ne_slash (cs : List String) (hok : okComps cs) (hne : cs ≠ [])
    (ch : Char) (h : (flatComps cs).getLast? = some ch) : ch ≠ '/' := by
  obtain ⟨bs, c, hbc⟩ := (List.eq_nil_or_concat cs).resolve_left hne
  rw [List.concat_eq_append] at hbc
  have hcok : okComp c := hok c (by simp [hbc])
  have hcne : c.data ≠ [] := by
    intro hd
    exact hcok.1 (by cases c; simp at hd; rw [hd])
  obtain ⟨c0, cs0, hc0⟩ := List.exists_cons_of_ne_nil hcne
  have hdata : flatComps cs = flatComps bs ++ '/' :: c.data := by
    rw [hbc, flatComps_append, flatComps_single]
  rw [hdata, List.getLast?_append_cons, hc0, List.getLast?_cons_cons] at h
  intro hcc
  rw [hcc] at h
  exact hcok.2.2.2.1 (by rw [hc0]; exact getLast?_some_mem _ _ h)

theorem mkPath_eq_mk (cs : List String) (h : cs ≠ []) :
    mkPath cs = String.mk (flatComps cs) := by
  rw [mkPath, if_neg h]

theorem pathJoin_mkPath (cs : List String) (c : String) (hok : okComps cs) (hc : okComp c) :
    pathJoin (mkPath cs) c = mkPath (cs ++ [c]) := by
  have hbne : c.data.head? ≠ some '/' := by
    intro hh
    cases hd : c.data with
    | nil => rw [hd] at hh; cases hh
    | cons x t =>
      rw [hd] at hh
      simp at hh
      exact hc.2.2.2.1 (by rw [hd, hh]; simp)
  unfold pathJoin
  cases hcs : cs with
  | nil =>
    dsimp only
    rw [if_pos (show (mkPath ([] : List String)).data.getLast? = some '/' by decide),
      if_neg hbne, mkPath_eq_mk ([] ++ [c]) (by simp)]
    simp [flatComps]
    rfl
  | cons b t =>
    rw [← hcs]
    have hne : cs ≠ [] := by simp [hcs]
    have hlast : (mkPath cs).data.getLast? ≠ some '/' := by
      intro hl
      rw [mkPath_data_of_ne_nil cs hne] at hl
      exact flatComps_getLast_ne_slash cs hok hne '/' hl rfl
    dsimp only
    rw [if_neg hlast, if_neg hbne, mkPath_eq_mk (cs ++ [c]) (by simp), mkPath_eq_mk cs hne,
      flatComps_append, flatComps_single]

theorem lastComp_mkPath (cs : List String) (c : String) (hok : okComps (cs ++ [c])) :
    lastComp (mkPath (cs ++ [c])) = c := by
  unfold lastComp
  rw [splitSlash_mkPath (cs ++ [c]) hok (by simp)]
  show ((("" : String) :: (cs ++ [c])).getLast?).getD "" = c
  rw [show ("" : String) :: (cs ++ [c]) = (("" : String) :: cs) ++ c :: [] by simp,
    List.getLast?_append_cons]
  rfl

theorem stringDataEq (a b : String) (h : a.data = b.data) : a = b := by
  cases a
  cases b
  simp at h
  rw [h]

theorem mem_of_isPrefixOf {l1 l2 : List Char} (h : l1.isPrefixOf l2 = true)
    {x : Char} (hx : x ∈ l1) : x ∈ l2 := by
  induction l1 generalizing l2 with
  | nil => cases hx
  | cons a t ih =>
    cases l2 with
    | nil => simp [List.isPrefixOf] at h
    | cons b u =>
      simp only [List.isPrefixOf, Bool.and_eq_true, beq_iff_eq] at h
      rcases List.mem_cons.mp hx with hx1 | hx1
      · rw [hx1, h.1]; simp
      · exact List.mem_cons_of_mem _ (ih h.2 hx1)

theorem isPrefixOf_cons_cons (a : Char) (l1 l2 : List Char) :
    (a :: l1).isPrefixOf (a :: l2) = l1.isPrefixOf l2 := by
  simp [List.isPrefixOf]

theorem noSepPrefixCancel : ∀ (a b r s : List Char), '/' ∉ a → '/' ∉ b →
    (a ++ '/' :: r).isPrefixOf (b ++ '/' :: s) = true → a = b ∧ r.isPrefixOf s = true := by
  intro a
  induction a with
  | nil =>
    intro b r s _ hb h
    cases b with
    | nil =>
      simp only [List.nil_append, List.isPrefixOf, Bool.and_eq_true, beq_iff_eq] at h
      exact ⟨rfl, h.2⟩
    | cons y b2 =>
      simp only [List.nil_append, List.cons_append, List.isPrefixOf, Bool.and_eq_true,
        beq_iff_eq] at h
      exact absurd (show ('/' : Char) ∈ y :: b2 by rw [h.1]; exact List.mem_cons_self y b2) hb
  | cons x a2 ih =>
    intro b r s ha hb h
    cases b with
    | nil =>
      simp only [List.cons_append, List.nil_append, List.isPrefixOf, Bool.and_eq_true,
        beq_iff_eq] at h
      exact absurd (show ('/' : Char) ∈ x :: a2 by rw [← h.1]; exact List.mem_cons_self x a2) ha
    | cons y b2 =>
      simp only [List.cons_append, List.isPrefixOf, Bool.and_eq_true, beq_iff_eq] at h
      obtain ⟨hxy, h2⟩ := h
      have hres := ih b2 r s (fun hc => ha (List.mem_cons_of_mem _ hc))
        (fun hc => hb (List.mem_cons_of_mem _ hc)) h2
      exact ⟨by rw [hxy, hres.1], hres.2⟩

theorem comps_prefix_of_flat : ∀ (cs ds : List String), okComps cs → okComps ds → cs ≠ [] →
    (flatComps cs ++ ['/']).isPrefixOf (flatComps ds) = true →
    ∃ er, er ≠ [] ∧ ds = cs ++ er := by
  intro cs
  induction cs with
  | nil => intro ds _ _ hne; exact absurd rfl hne
  | cons c cs2 ih =>
    intro ds hokc hokd _ h
    have hcok : okComp c := hokc c (by simp)
    cases ds with
    | nil =>
      have hR : flatComps ([] : List String) = [] := rfl
      have hL : flatComps (c :: cs2) ++ ['/'] =
          '/' :: (c.data ++ (flatComps cs2 ++ ['/'])) := by
        simp [flatComps]
      rw [hL, hR] at h
      simp [List.isPrefixOf] at h
    | cons d ds2 =>
      have hdok : okComp d := hokd d (by simp)
      have hL : flatComps (c :: cs2) ++ ['/'] =
          '/' :: (c.data ++ (flatComps cs2 ++ ['/'])) := by
        simp [flatComps]
      have hR : flatComps (d :: ds2) = '/' :: (d.data ++ flatComps ds2) := by
        simp [flatComps]
      rw [hL, hR, isPrefixOf_cons_cons] at h
      cases hds2 : ds2 with
      | nil =>
        rw [hds2] at h
        have hmem : '/' ∈ d.data ++ flatComps ([] : List String) :=
          mem_of_isPrefixOf h (by simp)
        simp [flatComps] at hmem
        exact absurd hmem hdok.2.2.2.1
      | cons d2 ds3 =>
        have hR2 : flatComps ds2 = '/' :: (d2.data ++ flatComps ds3) := by
          rw [hds2]
          simp [flatComps]
        rw [hR2] at h
        cases hcs2 : cs2 with
        | nil =>
          rw [hcs2] at h
          have hM : flatComps ([] : List String) ++ ['/'] = '/' :: ([] : List Char) := rfl
          rw [hM] at h
          have hres := noSepPrefixCancel c.data d.data [] (d2.data ++ flatComps ds3)
            hcok.2.2.2.1 hdok.2.2.2.1 h
          refine ⟨ds2, by simp [hds2], ?_⟩
          rw [show c = d from stringDataEq c d hres.1, hds2]
          rfl
        | cons c2 cs3 =>
          have hM : flatComps cs2 ++ ['/'] = '/' :: (c2.data ++ (flatComps cs3 ++ ['/'])) := by
            rw [hcs2]
            simp [flatComps]
          rw [hM] at h
          have hres := noSepPrefixCancel c.data d.data (c2.data ++ (flatComps cs3 ++ ['/']))
            (d2.data ++ flatComps ds3) hcok.2.2.2.1 hdok.2.2.2.1 h
          have hpre : (flatComps cs2 ++ ['/']).isPrefixOf (flatComps ds2) = true := by
            rw [hM, hR2, isPrefixOf_cons_cons]
            exact hres.2
          obtain ⟨er, hne, heq⟩ := ih ds2 (fun x hx => hokc x (by rw [hcs2] at hx ⊢; simp [hx]))
            (fun x hx => hokd x (by simp [hx])) (by simp [hcs2]) hpre
          refine ⟨er, hne, ?_⟩
          rw [hds2, hcs2] at heq
          simp [heq, stringDataEq c d hres.1]

/-- `q` lies strictly below `anc` as a path string (the comparison the source
performs with `startsWith(base + "/")`). -/
def isStrictDesc (anc q : String) : Bool := strStartsWith q (anc ++ "/")

theorem strictDesc_of_append (cs er : List String) (hok : okComps (cs ++ er))
    (hcs : cs ≠ []) (her : er ≠ []) :
    isStrictDesc (mkPath cs) (mkPath (cs ++ er)) = true := by
  unfold isStrictDesc strStartsWith
  rw [String.data_append, mkPath_data_of_ne_nil cs hcs,
    mkPath_data_of_ne_nil (cs ++ er) (by simp [hcs]), flatComps_append]
  obtain ⟨e, er2, her2⟩ := List.exists_cons_of_ne_nil her
  have hq : ("/" : String).data = ['/'] := rfl
  have hsh : flatComps cs ++ flatComps er =
      (flatComps cs ++ ['/']) ++ (e.data ++ flatComps er2) := by
    rw [her2]
    simp [flatComps]
  rw [hq, hsh]
  exact isPrefixOfAppendSelf _ _

theorem strictDesc_self_false (p : String) : isStrictDesc p p = false := by
  unfold isStrictDesc
  apply startsWithOfLonger
  rw [String.data_append]
  have hq : ("/" : String).data = ['/'] := rfl
  rw [hq]
  simp

theorem strictDesc_comps (cs ds : List String) (hokc : okComps cs) (hokd : okComps ds)
    (hcs : cs ≠ []) (h : isStrictDesc (mkPath cs) (mkPath ds) = true) :
    ∃ er, er ≠ [] ∧ ds = cs ++ er := by
  unfold isStrictDesc strStartsWith at h
  rw [String.data_append, mkPath_data_of_ne_nil cs hcs] at h
  have hq : ("/" : String).data = ['/'] := rfl
  rw [hq] at h
  rcases eq_or_ne ds [] with hds | hds
  · subst hds
    have hlen := isPrefixOfLenLe _ _ h
    have h2 := two_le_flatComps_length cs hokc hcs
    have h3 : (mkPath ([] : List String)).data.length = 1 := rfl
    simp only [List.length_append, List.length_cons, List.length_nil, h3] at hlen
    omega
  · rw [mkPath_data_of_ne_nil ds hds] at h
    exact comps_prefix_of_flat cs ds hokc hokd hcs h

theorem strictDesc_trans_good (np a q : String) (hnp : goodPath np) (ha : goodPath a)
    (hq : goodPath q) (h1 : isStrictDesc np a = true) (h2 : isStrictDesc a q = true) :
    isStrictDesc np q = true := by
  obtain ⟨hne1, hok1, heq1⟩ := hnp
  obtain ⟨hne2, hok2, heq2⟩ := ha
  obtain ⟨hne3, hok3, heq3⟩ := hq
  rw [heq1, heq2] at h1
  rw [heq2, heq3] at h2
  obtain ⟨er1, her1, hds1⟩ := strictDesc_comps _ _ hok1 hok2 hne1 h1
  obtain ⟨er2, her2, hds2⟩ := strictDesc_comps _ _ hok2 hok3 hne2 h2
  rw [heq1, heq3, hds2, hds1, List.append_assoc]
  exact strictDesc_of_append _ (er1 ++ er2)
    (by rw [← List.append_assoc, ← hds1, ← hds2]; exact hok3) hne1 (by simp [her1])

/-- The keys (full paths) of the filesystem. -/
def keyPaths (fs : FS) : List String := fs.nodes.map (fun e => e.1)

/-- The keys strictly below `p`. -/
def descKeys (fs : FS) (p : String) : List String :=
  (keyPaths fs).filter (isStrictDesc p)

/-- A well-formed filesystem snapshot: keys are distinct well-formed absolute
paths, and the parent of every key is either the root or itself a directory
key. -/
def WFfs (fs : FS) : Prop :=
  (keyPaths fs).Nodup ∧
  (∀ e ∈ fs.nodes, goodPath e.1) ∧
  (∀ e ∈ fs.nodes, dirname e.1 = "/" ∨ (dirname e.1, FNode.dir) ∈ fs.nodes)

instance (fs : FS) : Decidable (WFfs fs) := by
  unfold WFfs; infer_instance

theorem statFS_some_mem (fs : FS) (p : String) (n : FNode)
    (h : statFS fs p = some n) : (p, n) ∈ fs.nodes := by
  unfold statFS at h
  cases hf : fs.nodes.find? (fun e => e.1 == p) with
  | none => rw [hf] at h; cases h
  | some e =>
    rw [hf] at h
    injection h with h2
    have hbeq := List.find?_some hf
    have hmem := List.mem_of_find?_eq_some hf
    have he1 : e.1 = p := by simpa using hbeq
    have : (p, n) = e := by
      cases e
      simp only at h2 he1
      rw [h2, he1]
    rw [this]
    exact hmem

theorem statFS_eq_of_mem (fs : FS) (p : String) (n : FNode)
    (hnd : (keyPaths fs).Nodup) (h : (p, n) ∈ fs.nodes) : statFS fs p = some n := by
  unfold statFS
  cases hf : fs.nodes.find? (fun e => e.1 == p) with
  | none =>
    have := List.find?_eq_none.mp hf (p, n) h
    simp at this
  | some e =>
    have hbeq := List.find?_some hf
    have hmem := List.mem_of_find?_eq_some hf
    have he1 : e.1 = p := by simpa using hbeq
    have hEq : e = (p, n) :=
      List.inj_on_of_nodup_map hnd hmem h (by simpa using he1)
    rw [hEq]
    rfl

theorem filter_length_le_filter {α : Type _} (l : List α) (p q : α → Bool)
    (h : ∀ x ∈ l, p x = true → q x = true) :
    (l.filter p).length ≤ (l.filter q).length := by
  induction l with
  | nil => simp
  | cons a t ih =>
    have ht := ih (fun x hx => h x (by simp [hx]))
    rw [List.filter_cons, List.filter_cons]
    cases hp : p a
    · cases hq : q a <;> simp <;> omega
    · rw [h a (by simp) hp]
      simpa using ht

theorem filter_length_lt_filter {α : Type _} (l : List α) (p q : α → Bool)
    (h : ∀ x ∈ l, p x = true → q x = true) (x : α) (hx : x ∈ l)
    (hqx : q x = true) (hpx : p x = false) :
    (l.filter p).length < (l.filter q).length := by
  induction l with
  | nil => cases hx
  | cons a t ih =>
    rw [List.filter_cons, List.filter_cons]
    rcases List.mem_cons.mp hx with h1 | h1
    · subst h1
      rw [hpx, hqx]
      have := filter_length_le_filter t p q (fun y hy => h y (by simp [hy]))
      simp
      omega
    · have ht := ih (fun y hy => h y (by simp [hy])) h1
      cases hp : p a
      · cases hq : q a <;> simp <;> omega
      · rw [h a (by simp) hp]
        simpa using ht

theorem anc_key (fs : FS) (hwf : WFfs fs) :
    ∀ (d : Nat) (q : String) (n : FNode) (i : Nat), (q, n) ∈ fs.nodes →
      i + d = (compsOf q).length → 0 < i → i < (compsOf q).length →
      (mkPath ((compsOf q).take i), FNode.dir) ∈ fs.nodes := by
  intro d
  induction d with
  | zero =>
    intro q n i _ hlen _ hlt
    omega
  | succ m ih =>
    intro q n i hmem hlen hpos hlt
    obtain ⟨hqne0, hqok0, hqeq0⟩ := hwf.2.1 (q, n) hmem
    have hqne : compsOf q ≠ [] := hqne0
    have hqok : okComps (compsOf q) := hqok0
    have hqeq : q = mkPath (compsOf q) := hqeq0
    have hokTake : okComps ((compsOf q).take i) :=
      fun x hx => hqok x (List.take_subset _ _ hx)
    have hTakeNe : (compsOf q).take i ≠ [] := by
      have hlt2 : ((compsOf q).take i).length = i := by
        rw [List.length_take]
        omega
      intro hc
      rw [hc] at hlt2
      simp at hlt2
      omega
    rcases Nat.lt_or_ge (i + 1) (compsOf q).length with hlt2 | hge
    · have hup := ih q n (i + 1) hmem (by omega) (by omega) hlt2
      have hx : (compsOf q)[i]? = some ((compsOf q).get ⟨i, hlt⟩) := by
        rw [List.getElem?_eq_getElem hlt]
        rfl
      have htake : (compsOf q).take (i + 1) =
          (compsOf q).take i ++ [(compsOf q).get ⟨i, hlt⟩] := by
        rw [List.take_succ, hx]
        rfl
      have hxok : okComp ((compsOf q).get ⟨i, hlt⟩) := hqok _ (List.get_mem _ _ hlt)
      have hdir : dirname (mkPath ((compsOf q).take (i + 1))) =
          mkPath ((compsOf q).take i) := by
        rw [htake]
        exact dirname_mkPath_append _ _ hxok
      rcases hwf.2.2 (mkPath ((compsOf q).take (i + 1)), FNode.dir) hup with hroot | hpar
      · rw [hdir] at hroot
        exact absurd hroot (mkPath_ne_root _ hokTake hTakeNe)
      · rw [hdir] at hpar
        exact hpar
    · have hieq : i + 1 = (compsOf q).length := by omega
      obtain ⟨bs, c, hbc⟩ := (List.eq_nil_or_concat (compsOf q)).resolve_left hqne
      rw [List.concat_eq_append] at hbc
      have hbslen : bs.length = i := by
        have : (compsOf q).length = bs.length + 1 := by rw [hbc]; simp
        omega
      have htake : (compsOf q).take i = bs := by
        rw [hbc, ← hbslen]
        exact List.take_left bs [c]
      have hcok : okComp c := hqok c (by rw [hbc]; simp)
      have hdir : dirname q = mkPath ((compsOf q).take i) := by
        rw [htake]
        conv_lhs => rw [hqeq, hbc]
        exact dirname_mkPath_append bs c hcok

      rcases hwf.2.2 (q, n) hmem with hroot | hpar
      · rw [hdir] at hroot
        exact absurd hroot (mkPath_ne_root _ hokTake hTakeNe)
      · rw [hdir] at hpar
        exact hpar

theorem mem_keyPaths (fs : FS) (q : String) : q ∈ keyPaths fs ↔ ∃ n, (q, n) ∈ fs.nodes := by
  unfold keyPaths
  rw [List.mem_map]
  constructor
  · rintro ⟨⟨k, n⟩, he, heq⟩
    cases heq
    exact ⟨n, he⟩
  · rintro ⟨n, hn⟩
    exact ⟨(q, n), hn, rfl⟩

theorem good_of_keyPaths (fs : FS) (hwf : WFfs fs) (q : String) (hq : q ∈ keyPaths fs) :
    goodPath q := by
  obtain ⟨n, hn⟩ := (mem_keyPaths fs q).mp hq
  exact hwf.2.1 (q, n) hn

theorem child_facts (fs : FS) (hwf : WFfs fs) (np : String) (hnp : (np, FNode.dir) ∈ fs.nodes)
    (e : String × FNode) (he : e ∈ childrenOf fs np) :
    e ∈ fs.nodes ∧ pathJoin np (lastComp e.1) = e.1 ∧ isStrictDesc np e.1 = true ∧
      statFS fs e.1 = some e.2 := by
  unfold childrenOf at he
  have hmem : e ∈ fs.nodes := (List.mem_filter.mp he).1
  have hpred := (List.mem_filter.mp he).2
  simp only [Bool.and_eq_true, beq_iff_eq, bne_iff_ne, ne_eq] at hpred
  obtain ⟨hdir, hnev⟩ := hpred
  obtain ⟨hn0, ho0, he0⟩ := hwf.2.1 e hmem
  have hgne : compsOf e.1 ≠ [] := hn0
  have hgok : okComps (compsOf e.1) := ho0
  have hgeq : e.1 = mkPath (compsOf e.1) := he0
  obtain ⟨hp0, hp1, hp2⟩ := hwf.2.1 (np, FNode.dir) hnp
  have hpne : compsOf np ≠ [] := hp0
  have hpok : okComps (compsOf np) := hp1
  have hpeq : np = mkPath (compsOf np) := hp2
  obtain ⟨bs, c, hbc⟩ := (List.eq_nil_or_concat (compsOf e.1)).resolve_left hgne
  rw [List.concat_eq_append] at hbc
  have hcok : okComp c := hgok c (by rw [hbc]; simp)
  have hokbs : okComps bs := by
    intro x hx
    exact hgok x (by rw [hbc]; exact List.mem_append.mpr (Or.inl hx))
  have hdire : dirname e.1 = mkPath bs := by
    conv_lhs => rw [hgeq, hbc]
    exact dirname_mkPath_append bs c hcok
  have hnpbs : np = mkPath bs := by rw [← hdire, hdir]
  have hbsne : bs ≠ [] := by
    intro hb
    rw [hb] at hnpbs
    have hroot : np = "/" := by rw [hnpbs]; rfl
    rw [hpeq] at hroot
    exact mkPath_ne_root (compsOf np) hpok hpne hroot
  refine ⟨hmem, ?_, ?_, ?_⟩
  · rw [hnpbs]
    conv_lhs => rw [hgeq, hbc]
    rw [lastComp_mkPath bs c (by rw [← hbc]; exact hgok),
      pathJoin_mkPath bs c hokbs hcok, ← hbc, ← hgeq]
  · rw [hnpbs]
    conv_lhs => rw [hgeq, hbc]
    exact strictDesc_of_append bs [c] (by rw [← hbc]; exact hgok) hbsne (by simp)
  · exact statFS_eq_of_mem fs e.1 e.2 hwf.1 hmem

theorem descKeys_child_lt (fs : FS) (hwf : WFfs fs) (np : String)
    (hnp : (np, FNode.dir) ∈ fs.nodes) (e : String × FNode) (he : e ∈ childrenOf fs np) :
    (descKeys fs e.1).length < (descKeys fs np).length := by
  obtain ⟨hemem, _, hdesc, _⟩ := child_facts fs hwf np hnp e he
  have hek : e.1 ∈ keyPaths fs := (mem_keyPaths fs e.1).mpr ⟨e.2, hemem⟩
  have hegood : goodPath e.1 := good_of_keyPaths fs hwf e.1 hek
  have hpgood : goodPath np := hwf.2.1 (np, FNode.dir) hnp
  unfold descKeys
  apply filter_length_lt_filter (keyPaths fs) (isStrictDesc e.1) (isStrictDesc np) ?_ e.1 hek
    hdesc (strictDesc_self_false e.1)
  intro x hx hpx
  exact strictDesc_trans_good np e.1 x hpgood hegood (good_of_keyPaths fs hwf x hx) hdesc hpx

theorem descKeys_child_sub (fs : FS) (hwf : WFfs fs) (np : String)
    (hnp : (np, FNode.dir) ∈ fs.nodes) (e : String × FNode) (he : e ∈ childrenOf fs np)
    (q : String) (hq : q ∈ descKeys fs e.1) : q ∈ descKeys fs np := by
  obtain ⟨hemem, _, hdesc, _⟩ := child_facts fs hwf np hnp e he
  have hek : e.1 ∈ keyPaths fs := (mem_keyPaths fs e.1).mpr ⟨e.2, hemem⟩
  unfold descKeys at hq ⊢
  rw [List.mem_filter] at hq ⊢
  refine ⟨hq.1, ?_⟩
  exact strictDesc_trans_good np e.1 q (hwf.2.1 (np, FNode.dir) hnp)
    (good_of_keyPaths fs hwf e.1 hek) (good_of_keyPaths fs hwf q hq.1) hdesc hq.2

theorem desc_split (fs : FS) (hwf : WFfs fs) (np : String) (hnp : (np, FNode.dir) ∈ fs.nodes)
    (q : String) (hq : q ∈ descKeys fs np) :
    ∃ e, e ∈ childrenOf fs np ∧ (q = e.1 ∨ (e.2 = FNode.dir ∧ q ∈ descKeys fs e.1)) := by
  unfold descKeys at hq
  have hqk : q ∈ keyPaths fs := (List.mem_filter.mp hq).1
  have hqd : isStrictDesc np q = true := (List.mem_filter.mp hq).2
  obtain ⟨nq, hnq⟩ := (mem_keyPaths fs q).mp hqk
  obtain ⟨hq0, hq1, hq2⟩ := hwf.2.1 (q, nq) hnq
  have hqne : compsOf q ≠ [] := hq0
  have hqok : okComps (compsOf q) := hq1
  have hqeq : q = mkPath (compsOf q) := hq2
  obtain ⟨hp0, hp1, hp2⟩ := hwf.2.1 (np, FNode.dir) hnp
  have hpne : compsOf np ≠ [] := hp0
  have hpok : okComps (compsOf np) := hp1
  have hpeq : np = mkPath (compsOf np) := hp2
  have hsd : isStrictDesc (mkPath (compsOf np)) (mkPath (compsOf q)) = true := by
    rw [← hpeq, ← hqeq]
    exact hqd
  obtain ⟨er, her, hds⟩ := strictDesc_comps _ _ hpok hqok hpne hsd
  obtain ⟨e1, er2, her2⟩ := List.exists_cons_of_ne_nil her
  have hokE : okComps (compsOf np ++ [e1]) := by
    intro x hx
    apply hqok
    rw [hds, her2]
    rcases List.mem_append.mp hx with h | h
    · exact List.mem_append.mpr (Or.inl h)
    · simp at h
      rw [h]
      exact List.mem_append.mpr (Or.inr (by simp))
  rcases eq_or_ne er2 [] with h2 | h2
  · refine ⟨(q, nq), ?_, Or.inl rfl⟩
    unfold childrenOf
    rw [List.mem_filter]
    refine ⟨hnq, ?_⟩
    have hdirq : dirname q = np := by
      conv_lhs => rw [hqeq, hds, her2, h2]
      rw [dirname_mkPath_append (compsOf np) e1 (hokE e1 (by simp)), ← hpeq]
    have hqnp : q ≠ np := by
      have hne := mkPath_append_ne (compsOf np) er (by rw [← hds]; exact hqok) her
      rw [← hds, ← hqeq, ← hpeq] at hne
      exact hne
    simp [hdirq, hqnp]
  · have hlen : (compsOf q).length = (compsOf np).length + 1 + er2.length := by
      rw [hds, her2]
      simp
      omega
    have htake : (compsOf q).take ((compsOf np).length + 1) = compsOf np ++ [e1] := by
      have hsh : compsOf q = (compsOf np ++ [e1]) ++ er2 := by
        rw [hds, her2]
        simp
      rw [hsh, show (compsOf np).length + 1 = (compsOf np ++ [e1]).length by simp]
      exact List.take_left _ _
    have her2len : 0 < er2.length := List.length_pos.mpr h2
    have ha1 := anc_key fs hwf ((compsOf q).length - ((compsOf np).length + 1)) q nq
      ((compsOf np).length + 1) hnq (by omega) (by omega) (by omega)
    rw [htake] at ha1
    refine ⟨(mkPath (compsOf np ++ [e1]), FNode.dir), ?_, Or.inr ⟨rfl, ?_⟩⟩
    · unfold childrenOf
      rw [List.mem_filter]
      refine ⟨ha1, ?_⟩
      have hdir1 : dirname (mkPath (compsOf np ++ [e1])) = np := by
        rw [dirname_mkPath_append (compsOf np) e1 (hokE e1 (by simp)), ← hpeq]
      have hne1 : mkPath (compsOf np ++ [e1]) ≠ np := by
        have hne := mkPath_append_ne (compsOf np) [e1] hokE (by simp)
        rw [← hpeq] at hne
        exact hne
      simp [hdir1, hne1]
    · unfold descKeys
      rw [List.mem_filter]
      refine ⟨hqk, ?_⟩
      have hokF : okComps ((compsOf np ++ [e1]) ++ er2) := by
        intro x hx
        apply hqok
        rw [hds, her2]
        rcases List.mem_append.mp hx with h | h
        · rcases List.mem_append.mp h with h3 | h3
          · exact List.mem_append.mpr (Or.inl h3)
          · simp at h3
            rw [h3]
            exact List.mem_append.mpr (Or.inr (by simp))
        · exact List.mem_append.mpr (Or.inr (by simp [h]))
      have hq3 : q = mkPath ((compsOf np ++ [e1]) ++ er2) := by
        conv_lhs => rw [hqeq, hds, her2]
        rw [List.append_assoc]
        rfl
      conv_lhs => rw [hq3]
      exact strictDesc_of_append (compsOf np ++ [e1]) er2 hokF (by simp) h2

theorem collectEntry_append (fs : FS) (rec : String → List PreviewItem) (dirPath : String)
    (e : String × FNode) (acc : List PreviewItem)
    (h : (statFS fs (pathJoin dirPath (lastComp e.1))).isSome = true) :
    collectEntry fs rec dirPath e acc = collectEntry fs rec dirPath e [] ++ acc := by
  unfold collectEntry
  dsimp only
  cases e.2 with
  | dir => simp
  | file c =>
    cases hs : statFS fs (pathJoin dirPath (lastComp e.1)) with
    | none => rw [hs] at h; cases h
    | some n => cases n <;> rfl

theorem foldr_collectEntry (fs : FS) (rec : String → List PreviewItem) (dirPath : String) :
    ∀ entries : List (String × FNode),
      (∀ e ∈ entries, (statFS fs (pathJoin dirPath (lastComp e.1))).isSome = true) →
      entries.foldr (collectEntry fs rec dirPath) [] =
        entries.flatMap (fun e => collectEntry fs rec dirPath e []) := by
  intro entries
  induction entries with
  | nil => intro _; rfl
  | cons e rest ih =>
    intro h
    rw [List.foldr_cons, List.flatMap_cons, ih (fun x hx => h x (by simp [hx])),
      collectEntry_append fs rec dirPath e _ (h e (by simp))]

/-- The depth-first `collectItems` walk, run with enough fuel from a directory
key of a well-formed filesystem, enumerates exactly the keys strictly below
the directory. -/
theorem collectAux_mem (fs : FS) (hwf : WFfs fs) :
    ∀ (fuel : Nat) (np : String), (np, FNode.dir) ∈ fs.nodes →
      (descKeys fs np).length < fuel →
      ∀ q, q ∈ (collectAux fs fuel np).map (fun i => i.path) ↔ q ∈ descKeys fs np := by
  intro fuel
  induction fuel with
  | zero => intro np _ hlt; omega
  | succ m ih =>
    intro np hnp hlt q
    have hstat : statFS fs np = some FNode.dir := statFS_eq_of_mem fs np _ hwf.1 hnp
    have hrd : readdirFS fs np = some (childrenOf fs np) := by
      unfold readdirFS
      rw [hstat]
    have hchildStat : ∀ e ∈ childrenOf fs np,
        (statFS fs (pathJoin np (lastComp e.1))).isSome = true := by
      intro e he
      obtain ⟨_, hfull, _, hse⟩ := child_facts fs hwf np hnp e he
      rw [hfull, hse]
      rfl
    have hstep : collectAux fs (m + 1) np =
        match readdirFS fs np with
        | none => []
        | some entries => entries.foldr (collectEntry fs (collectAux fs m) np) [] := rfl
    have hcoll : collectAux fs (m + 1) np =
        (childrenOf fs np).flatMap (fun e => collectEntry fs (collectAux fs m) np e []) := by
      rw [hstep, hrd]
      exact foldr_collectEntry fs (collectAux fs m) np (childrenOf fs np) hchildStat
    constructor
    · intro hq
      rw [List.mem_map] at hq
      obtain ⟨it, hit, hpath⟩ := hq
      rw [hcoll, List.mem_flatMap] at hit
      obtain ⟨e, he, hin⟩ := hit
      obtain ⟨hemem, hfull, hdesc, hse⟩ := child_facts fs hwf np hnp e he
      have hek : e.1 ∈ keyPaths fs := (mem_keyPaths fs e.1).mpr ⟨e.2, hemem⟩
      unfold collectEntry at hin
      dsimp only at hin
      rw [hfull] at hin
      cases he2 : e.2 with
      | dir =>
        rw [he2] at hin
        simp only [List.append_nil, List.mem_append] at hin
        rcases hin with hin | hin
        · have hde : (e.1, FNode.dir) ∈ fs.nodes := by rw [← he2]; exact hemem
          have hlt2 : (descKeys fs e.1).length < m := by
            have := descKeys_child_lt fs hwf np hnp e he
            omega
          have hq2 : q ∈ descKeys fs e.1 := by
            rw [← ih e.1 hde hlt2 q, List.mem_map]
            exact ⟨it, hin, hpath⟩
          exact descKeys_child_sub fs hwf np hnp e he q hq2
        · unfold descKeys
          rw [List.mem_filter]
          simp at hin
          rw [← hpath, hin]
          exact ⟨hek, hdesc⟩
      | file c =>
        rw [he2] at hin
        rw [he2] at hse
        rw [hse] at hin
        simp at hin
        unfold descKeys
        rw [List.mem_filter]
        rw [← hpath, hin]
        exact ⟨hek, hdesc⟩
    · intro hq
      obtain ⟨e, he, hcase⟩ := desc_split fs hwf np hnp q hq
      obtain ⟨hemem, hfull, hdesc, hse⟩ := child_facts fs hwf np hnp e he
      rw [hcoll, List.mem_map]
      rcases hcase with hq1 | ⟨hdir, hq2⟩
      · cases he2 : e.2 with
        | dir =>
          refine ⟨⟨e.1, EntryKind.dir, none⟩, ?_, by rw [hq1]⟩
          rw [List.mem_flatMap]
          refine ⟨e, he, ?_⟩
          unfold collectEntry
          dsimp only
          rw [hfull, he2]
          simp
        | file c =>
          refine ⟨⟨e.1, EntryKind.file, some c.length⟩, ?_, by rw [hq1]⟩
          rw [List.mem_flatMap]
          refine ⟨e, he, ?_⟩
          unfold collectEntry
          dsimp only
          rw [hfull, he2]
          rw [he2] at hse
          rw [hse]
          simp
      · have hde : (e.1, FNode.dir) ∈ fs.nodes := by rw [← hdir]; exact hemem
        have hlt2 : (descKeys fs e.1).length < m := by
          have := descKeys_child_lt fs hwf np hnp e he
          omega
        have hsub := (ih e.1 hde hlt2 q).mpr hq2
        rw [List.mem_map] at hsub
        obtain ⟨it, hit, hpath⟩ := hsub
        refine ⟨it, ?_, hpath⟩
        rw [List.mem_flatMap]
        refine ⟨e, he, ?_⟩
        unfold collectEntry
        dsimp only
        rw [hfull, hdir]
        simp [hit]

/-- Recursive directory preview: exactly the directory itself plus every key
strictly below it. -/
theorem previewDeletion_recursive_mem (ctx : Ctx) (fs : FS) (hwf : WFfs fs) (np : String)
    (hstat : statFS fs np = some FNode.dir) (q : String) :
    q ∈ (previewDeletion ctx fs np true).map (fun i => i.path) ↔
      (q = np ∨ q ∈ descKeys fs np) := by
  have hnp : (np, FNode.dir) ∈ fs.nodes := statFS_some_mem fs np _ hstat
  have hgood : goodPath np := hwf.2.1 (np, FNode.dir) hnp
  have hfuel : (descKeys fs np).length < fs.nodes.length + 1 := by
    have h1 : (descKeys fs np).length ≤ (keyPaths fs).length := List.length_filter_le _ _
    have h2 : (keyPaths fs).length = fs.nodes.length := by unfold keyPaths; simp
    omega
  unfold previewDeletion
  dsimp only
  rw [resolve_good ctx np hgood, hstat]
  simp only [if_true, List.map_append, List.mem_append]
  rw [collectAux_mem fs hwf (fs.nodes.length + 1) np hnp hfuel q]
  simp only [List.map_cons, List.map_nil, List.mem_singleton]
  exact Or.comm

theorem previewDeletion_file (ctx : Ctx) (fs : FS) (np : String) (c : List Nat)
    (hgood : goodPath np) (hstat : statFS fs np = some (FNode.file c)) :
    previewDeletion ctx fs np false = [⟨np, EntryKind.file, some c.length⟩] := by
  unfold previewDeletion
  dsimp only
  rw [resolve_good ctx np hgood, hstat]

theorem previewDeletion_dir_nonrec (ctx : Ctx) (fs : FS) (np : String)
    (hgood : goodPath np) (hstat : statFS fs np = some FNode.dir) :
    previewDeletion ctx fs np false = [⟨np, EntryKind.dir, none⟩] := by
  unfold previewDeletion
  dsimp only
  rw [resolve_good ctx np hgood, hstat]
  simp

/-- With the preview flag set, `deleteFileTool` leaves the filesystem
untouched and attempts no mutation, whatever else happens. -/
theorem deleteFileTool_preview_frame (ctx : Ctx) (fs : FS) (input : DeleteFileInput)
    (h : input.preview = true) :
    (deleteFileTool ctx fs input).fs = fs ∧
    mutationFree (deleteFileTool ctx fs input).events = true := by
  unfold deleteFileTool
  dsimp only
  cases hv : validateDeletion ctx (resolve ctx input.path) with
  | error e => exact ⟨by trivial, by trivial⟩
  | ok sc =>
    cases hsafe : sc.safe with
    | false =>
      simp only [hsafe, Bool.false_eq_true, if_false]
      exact ⟨by trivial, by trivial⟩
    | true =>
      simp only [hsafe, if_true]
      cases hst : statFS fs (resolve ctx input.path) with
      | none => exact ⟨by trivial, by trivial⟩
      | some n =>
        cases n with
        | dir => exact ⟨by trivial, by trivial⟩
        | file content =>
          dsimp only
          split
          · exact ⟨by trivial, by trivial⟩
          · next hnp => exact absurd h hnp

/-- With the preview flag set, `deleteDirectoryTool` leaves the filesystem
untouched and attempts no mutation, whatever else happens. -/
theorem deleteDirectoryTool_preview_frame (ctx : Ctx) (fs : FS) (input : DeleteDirectoryInput)
    (h : input.preview = true) :
    (deleteDirectoryTool ctx fs input).fs = fs ∧
    mutationFree (deleteDirectoryTool ctx fs input).events = true := by
  unfold deleteDirectoryTool
  dsimp only
  cases hv : validateDeletion ctx (resolve ctx input.path) with
  | error e => exact ⟨by trivial, by trivial⟩
  | ok sc =>
    cases hsafe : sc.safe with
    | false =>
      simp only [hsafe, Bool.false_eq_true, if_false]
      exact ⟨by trivial, by trivial⟩
    | true =>
      simp only [hsafe, if_true]
      split
      · exact ⟨by trivial, by trivial⟩
      · cases hst : statFS fs (resolve ctx input.path) with
        | none => exact ⟨by trivial, by trivial⟩
        | some n =>
          cases n with
          | file content => exact ⟨by trivial, by trivial⟩
          | dir =>
            dsimp only
            exact ⟨by trivial, by trivial⟩

/-- The preview branch of `deleteFileTool`: an approved, existing regular file
previews as exactly itself with its byte size, unexecuted. -/
theorem deleteFileTool_preview_content (ctx : Ctx) (fs : FS) (input : DeleteFileInput)
    (sc : SafetyCheckResult) (c : List Nat) (hwf : WFfs fs) (h : input.preview = true)
    (hv : validateDeletion ctx (resolve ctx input.path) = .ok sc) (hsafe : sc.safe = true)
    (hstat : statFS fs (resolve ctx input.path) = some (FNode.file c)) :
    ∃ r, (deleteFileTool ctx fs input).res = .ok r ∧ r.executed = false ∧
      r.preview = some [⟨resolve ctx input.path, EntryKind.file, some c.length⟩] := by
  have hgood : goodPath (resolve ctx input.path) :=
    hwf.2.1 (resolve ctx input.path, FNode.file c) (statFS_some_mem _ _ _ hstat)
  unfold deleteFileTool
  dsimp only
  rw [hv]
  simp only [hsafe, if_true, hstat]
  rw [if_pos h]
  refine ⟨_, rfl, rfl, ?_⟩
  rw [previewDeletion_file ctx fs _ c hgood hstat]

/-- The preview branch of `deleteDirectoryTool`, non-recursive: an approved,
existing directory previews as exactly itself, unexecuted. -/
theorem deleteDirectoryTool_preview_nonrec (ctx : Ctx) (fs : FS)
    (input : DeleteDirectoryInput) (sc : SafetyCheckResult) (hwf : WFfs fs)
    (h : input.preview = true) (hrec : input.recursive = false)
    (hv : validateDeletion ctx (resolve ctx input.path) = .ok sc) (hsafe : sc.safe = true)
    (hstat : statFS fs (resolve ctx input.path) = some FNode.dir) :
    ∃ r, (deleteDirectoryTool ctx fs input).res = .ok r ∧ r.executed = false ∧
      r.preview = some [⟨resolve ctx input.path, EntryKind.dir, none⟩] := by
  have hgood : goodPath (resolve ctx input.path) :=
    hwf.2.1 (resolve ctx input.path, FNode.dir) (statFS_some_mem _ _ _ hstat)
  have hgate : (input.recursive && ! input.confirmRecursive) = false := by
    rw [hrec]
    rfl
  unfold deleteDirectoryTool
  dsimp only
  rw [hv]
  simp only [hsafe, if_true, hgate, Bool.false_eq_true, if_false, hstat]
  rw [if_pos h]
  refine ⟨_, rfl, rfl, ?_⟩
  rw [hrec, previewDeletion_dir_nonrec ctx fs _ hgood hstat]

/-- The preview branch of `deleteDirectoryTool`, recursive and confirmed: an
approved, existing directory previews, unexecuted, as a list whose paths are
exactly the directory itself and every key strictly below it. -/
theorem deleteDirectoryTool_preview_rec (ctx : Ctx) (fs : FS)
    (input : DeleteDirectoryInput) (sc : SafetyCheckResult) (hwf : WFfs fs)
    (h : input.preview = true) (hrec : input.recursive = true)
    (hconf : input.confirmRecursive = true)
    (hv : validateDeletion ctx (resolve ctx input.path) = .ok sc) (hsafe : sc.safe = true)
    (hstat : statFS fs (resolve ctx input.path) = some FNode.dir) :
    ∃ r items, (deleteDirectoryTool ctx fs input).res = .ok r ∧ r.executed = false ∧
      r.preview = some items ∧
      ∀ q, q ∈ items.map (fun i => i.path) ↔
        (q = resolve ctx input.path ∨ q ∈ descKeys fs (resolve ctx input.path)) := by
  have hgate : (input.recursive && ! input.confirmRecursive) = false := by
    rw [hrec, hconf]
    rfl
  unfold deleteDirectoryTool
  dsimp only
  rw [hv]
  simp only [hsafe, if_true, hgate, Bool.false_eq_true, if_false, hstat]
  rw [if_pos h]
  refine ⟨_, _, rfl, rfl, rfl, ?_⟩
  intro q
  rw [hrec]
  exact previewDeletion_recursive_mem ctx fs hwf _ hstat q

/-- Claim C9: preview never mutates.  With the preview flag set, both deletion
tools return the filesystem unchanged and attempt no mutation; and whenever
such a call reaches its preview branch (validation approved, target exists
with the right kind, and for directories the recursive-confirmation gate
passed), the result is unexecuted and its preview describes the entities that
would be deleted: the file itself with its size, the directory itself when
recursion was not requested, and — on a well-formed snapshot — exactly the
directory together with its full descendant set when it was. -/
theorem C9_thm (ctx : Ctx) (fs : FS) :
    (∀ input : DeleteFileInput, input.preview = true →
      (deleteFileTool ctx fs input).fs = fs ∧
      mutationFree (deleteFileTool ctx fs input).events = true) ∧
    (∀ input : DeleteDirectoryInput, input.preview = true →
      (deleteDirectoryTool ctx fs input).fs = fs ∧
      mutationFree (deleteDirectoryTool ctx fs input).events = true) ∧
    (∀ (input : DeleteFileInput) (sc : SafetyCheckResult) (c : List Nat), WFfs fs →
      input.preview = true →
      validateDeletion ctx (resolve ctx input.path) = .ok sc → sc.safe = true →
      statFS fs (resolve ctx input.path) = some (FNode.file c) →
      ∃ r, (deleteFileTool ctx fs input).res = .ok r ∧ r.executed = false ∧
        r.preview = some [⟨resolve ctx input.path, EntryKind.file, some c.length⟩]) ∧
    (∀ (input : DeleteDirectoryInput) (sc : SafetyCheckResult), WFfs fs →
      input.preview = true → input.recursive = false →
      validateDeletion ctx (resolve ctx input.path) = .ok sc → sc.safe = true →
      statFS fs (resolve ctx input.path) = some FNode.dir →
      ∃ r, (deleteDirectoryTool ctx fs input).res = .ok r ∧ r.executed = false ∧
        r.preview = some [⟨resolve ctx input.path, EntryKind.dir, none⟩]) ∧
    (∀ (input : DeleteDirectoryInput) (sc : SafetyCheckResult), WFfs fs →
      input.preview = true → input.recursive = true → input.confirmRecursive = true →
      validateDeletion ctx (resolve ctx input.path) = .ok sc → sc.safe = true →
      statFS fs (resolve ctx input.path) = some FNode.dir →
      ∃ r items, (deleteDirectoryTool ctx fs input).res = .ok r ∧ r.executed = false ∧
        r.preview = some items ∧
        ∀ q, q ∈ items.map (fun i => i.path) ↔
          (q = resolve ctx input.path ∨ q ∈ descKeys fs (resolve ctx input.path))) :=
  ⟨fun input h => deleteFileTool_preview_frame ctx fs input h,
   fun input h => deleteDirectoryTool_preview_frame ctx fs input h,
   fun input sc c hwf h hv hsafe hstat =>
     deleteFileTool_preview_content ctx fs input sc c hwf h hv hsafe hstat,
   fun input sc hwf h hrec hv hsafe hstat =>
     deleteDirectoryTool_preview_nonrec ctx fs input sc hwf h hrec hv hsafe hstat,
   fun input sc hwf h hrec hconf hv hsafe hstat =>
     deleteDirectoryTool_preview_rec ctx fs input sc hwf h hrec hconf hv hsafe hstat⟩

/-- Context for the C9 witness: one configured allow-list root `/h/p`. -/
def ctxC9 : Ctx :=
  ⟨"/h", "/", false, false, some (some (["/h/p"], [], [])), fun _ => true, fun _ _ => false,
   fun c => toString c⟩

/-- Filesystem for the C9 witness: a directory `/h/p/a` holding a file and a
subdirectory that holds another file. -/
def fsC9 : FS :=
  ⟨[("/h", .dir), ("/h/p", .dir), ("/h/p/a", .dir), ("/h/p/a/f.txt", .file [1, 2]),
    ("/h/p/a/g", .dir), ("/h/p/a/g/h.txt", .file [3])], [], [], fun _ => ""⟩

def dfInC9 : DeleteFileInput := ⟨"/h/p/a/f.txt", true, false⟩

def ddInC9n : DeleteDirectoryInput := ⟨"/h/p/a", true, false, false⟩

def ddInC9r : DeleteDirectoryInput := ⟨"/h/p/a", true, true, true⟩

/-- Witness for C9 at concrete preview requests on a well-formed snapshot. -/
theorem C9_witness :
    (((deleteFileTool ctxC9 fsC9 dfInC9).fs = fsC9 ∧
      mutationFree (deleteFileTool ctxC9 fsC9 dfInC9).events = true) ∧
     ((deleteDirectoryTool ctxC9 fsC9 ddInC9r).fs = fsC9 ∧
      mutationFree (deleteDirectoryTool ctxC9 fsC9 ddInC9r).events = true)) ∧
    (∃ r, (deleteFileTool ctxC9 fsC9 dfInC9).res = .ok r ∧ r.executed = false ∧
      r.preview = some [⟨resolve ctxC9 dfInC9.path, EntryKind.file, some 2⟩]) ∧
    (∃ r, (deleteDirectoryTool ctxC9 fsC9 ddInC9n).res = .ok r ∧ r.executed = false ∧
      r.preview = some [⟨resolve ctxC9 ddInC9n.path, EntryKind.dir, none⟩]) ∧
    (∃ r items, (deleteDirectoryTool ctxC9 fsC9 ddInC9r).res = .ok r ∧ r.executed = false ∧
      r.preview = some items ∧
      ∀ q, q ∈ items.map (fun i => i.path) ↔
        (q = resolve ctxC9 ddInC9r.path ∨ q ∈ descKeys fsC9 (resolve ctxC9 ddInC9r.path))) :=
  ⟨⟨(C9_thm ctxC9 fsC9).1 dfInC9 rfl, (C9_thm ctxC9 fsC9).2.1 ddInC9r rfl⟩,
   (C9_thm ctxC9 fsC9).2.2.1 dfInC9 ⟨true, none, none⟩ [1, 2] (by decide) rfl (by decide)
     rfl (by decide),
   (C9_thm ctxC9 fsC9).2.2.2.1 ddInC9n ⟨true, none, none⟩ (by decide) rfl rfl (by decide)
     rfl (by decide),
   (C9_thm ctxC9 fsC9).2.2.2.2 ddInC9r ⟨true, none, none⟩ (by decide) rfl rfl rfl (by decide)
     rfl (by decide)⟩


end Fsorg
